import Mathlib

/-!
Verification of the `array_range_query` crate: a point-update/range-query
segment tree (`SegTree`, src/seg_tree.rs) and a lazy range-update/range-query
segment tree (`LazySegTree`, src/lazy_seg_tree.rs), together with the shared
range helpers (src/utils.rs).

The Rust code is shallowly embedded: the flat 1-indexed array storage becomes
`List` values, in-place mutation becomes functional state passing, trait-bound
spec types (`SegTreeSpec`, `LazySegTreeSpec`) become explicit records of
operations, and panics (`assert!` in `validate_range` / `update`) become
`Except` errors.  Source names are kept wherever Lean allows.
-/

/-- Errors corresponding to the panics in the source (`validate_range`'s
assert and `SegTree::update`'s bounds assert). -/
inductive RQError where
  | invalidRange
  | indexOutOfBounds
deriving DecidableEq, Repr

/-- One end of a Rust `RangeBounds<usize>` argument. -/
inductive RBound where
  | included (n : Nat)
  | excluded (n : Nat)
  | unbounded
deriving DecidableEq, Repr

/-- Embeds `utils::parse_range` (src/utils.rs lines 15-27): converts any
range-bound pair into a concrete half-open `(start, end)` pair, using `size`
for unbounded ends. -/
def parse_range (sb eb : RBound) (size : Nat) : Nat × Nat :=
  let start := match sb with
    | .included s => s
    | .excluded s => s + 1
    | .unbounded => 0
  let stop := match eb with
    | .included e => e + 1
    | .excluded e => e
    | .unbounded => size
  (start, stop)

/-- Embeds `utils::validate_range` (src/utils.rs lines 34-42): the source
asserts `left <= right && right <= size` and panics otherwise; here the
condition is returned as a decidable proposition. -/
def validate_range (left right size : Nat) : Prop :=
  left ≤ right ∧ right ≤ size

instance (left right size : Nat) : Decidable (validate_range left right size) :=
  inferInstanceAs (Decidable (_ ∧ _))

/-- The monoid spec for `SegTree` (trait `SegTreeSpec`): element type `T`,
identity `ID`, and the in-place associative operation `op` (modelled
functionally: `op a b` is the value left in `a`). -/
structure SegSpec (T : Type) where
  ID : T
  op : T → T → T

/-- The `SegTree` struct (src/seg_tree.rs lines 182-191): logical `size`,
`max_size` = next power of two ≥ size, and the flat 1-indexed `data` array
of length `2 * max_size`. -/
structure SegTree (T : Type) where
  size : Nat
  maxSize : Nat
  data : List T
deriving Repr

/-- The bottom-up build loop shared by both trees' `from_vec`/`from_slice`
(`for i in (1..max_size).rev() { data[i] = op(data[2i], data[2i+1]) }`),
processing indices `i, i-1, ..., 1`. -/
def buildLoop {T : Type} (id : T) (op : T → T → T) (d : List T) : Nat → List T
  | 0 => d
  | i + 1 =>
    buildLoop id op
      (d.set (i + 1) (op (d.getD ((i + 1) * 2) id) (d.getD ((i + 1) * 2 + 1) id))) i

/-- Writing the initial values into the leaf slots starting at position `k`
(the `for (i, v) in vec.into_iter().enumerate() { data[max_size + i] = v }`
loop of `from_vec`, equivalently `clone_from_slice` in `from_slice`). -/
def writeLeaves {T : Type} (d : List T) (k : Nat) : List T → List T
  | [] => d
  | v :: vs => writeLeaves (d.set k v) (k + 1) vs

/-- `SegTree::new` (src/seg_tree.rs lines 219-227): all slots set to `ID`. -/
def SegTree.new {T : Type} (S : SegSpec T) (size : Nat) : SegTree T :=
  let maxSize := size.nextPowerOfTwo
  { size := size, maxSize := maxSize, data := List.replicate (maxSize * 2) S.ID }

/-- `SegTree::from_vec` (src/seg_tree.rs lines 302-326): leaves written in,
internal nodes built bottom-up. -/
def SegTree.from_vec {T : Type} (S : SegSpec T) (values : List T) : SegTree T :=
  let size := values.length
  let maxSize := size.nextPowerOfTwo
  let data := List.replicate (2 * maxSize) S.ID
  let data := writeLeaves data maxSize values
  let data := buildLoop S.ID S.op data (maxSize - 1)
  { size := size, maxSize := maxSize, data := data }

/-- `SegTree::from_slice` (src/seg_tree.rs lines 254-275): identical to
`from_vec` except the source clones from a borrowed slice instead of moving
an owned vector; the resulting tree is the same. -/
def SegTree.from_slice {T : Type} (S : SegSpec T) (values : List T) : SegTree T :=
  SegTree.from_vec S values

/-- The two-pointer bottom-up combine loop of `SegTree::query`
(src/seg_tree.rs lines 380-394). -/
def SegTree.queryLoop {T : Type} (S : SegSpec T) (data : List T)
    (left right : Nat) (resL resR : T) : T :=
  if h : left < right then
    let resL2 := if left % 2 = 1 then S.op resL (data.getD left S.ID) else resL
    let left2 := if left % 2 = 1 then left + 1 else left
    let right2 := if right % 2 = 1 then right - 1 else right
    let resR2 := if right % 2 = 1 then S.op resR (data.getD right2 S.ID) else resR
    SegTree.queryLoop S data (left2 / 2) (right2 / 2) resL2 resR2
  else
    S.op resL resR
termination_by right
decreasing_by
  split <;> omega

/-- `SegTree::query` (src/seg_tree.rs lines 363-399) on an already-parsed
half-open range: validation first (panic modelled as `.error`), early `ID`
return on the empty range, then the two-pointer loop over leaf-space
pointers. -/
def SegTree.query {T : Type} (S : SegSpec T) (t : SegTree T)
    (left right : Nat) : Except RQError T :=
  if validate_range left right t.size then
    if left = right then .ok S.ID
    else .ok (SegTree.queryLoop S t.data (left + t.maxSize) (right + t.maxSize) S.ID S.ID)
  else .error .invalidRange

/-- `SegTree::query` with a `RangeBounds` argument: `parse_range` then the
core query, exactly as in the source. -/
def SegTree.queryBounds {T : Type} (S : SegSpec T) (t : SegTree T)
    (sb eb : RBound) : Except RQError T :=
  let (left, right) := parse_range sb eb t.size
  SegTree.query S t left right

/-- `SegTree::recompute` (src/seg_tree.rs lines 451-461): walk up from a
leaf, recombining each parent from its two children. -/
def SegTree.recompute {T : Type} (S : SegSpec T) (data : List T)
    (index : Nat) : List T :=
  if h : 1 < index then
    let index2 := index / 2
    SegTree.recompute S
      (data.set index2 (S.op (data.getD (index2 * 2) S.ID) (data.getD (index2 * 2 + 1) S.ID)))
      index2
  else data
termination_by index
decreasing_by omega

/-- `SegTree::update` (src/seg_tree.rs lines 433-439): bounds assert
(modelled as `.error`), leaf assignment, then `recompute` up the tree. -/
def SegTree.update {T : Type} (S : SegSpec T) (t : SegTree T)
    (index : Nat) (value : T) : Except RQError (SegTree T) :=
  if index < t.size then
    let leaf_index := index + t.maxSize
    .ok { t with data := SegTree.recompute S (t.data.set leaf_index value) leaf_index }
  else .error .indexOutOfBounds

/-- The spec for `LazySegTree` (trait `LazySegTreeSpec`): data type `T`,
update type `U`, identity `ID`, data-combine, update-compose, and
apply-update-to-data (parameterized by the covered leaf count). -/
structure LazySpec (T U : Type) where
  ID : T
  op_on_data : T → T → T
  op_on_update : U → U → U
  op_update_on_data : U → T → Nat → T

/-- The `LazySegTree` struct (src/lazy_seg_tree.rs lines 147-158): flat
1-indexed `data` and `tags` arrays of length `2 * max_size`. -/
structure LazySegTree (T U : Type) where
  size : Nat
  maxSize : Nat
  data : List T
  tags : List (Option U)
deriving Repr

/-- `LazySegTree::new` (src/lazy_seg_tree.rs lines 184-193). -/
def LazySegTree.new {T U : Type} (S : LazySpec T U) (size : Nat) : LazySegTree T U :=
  let maxSize := size.nextPowerOfTwo
  { size := size, maxSize := maxSize,
    data := List.replicate (maxSize * 2) S.ID,
    tags := List.replicate (maxSize * 2) none }

/-- `LazySegTree::from_vec` (src/lazy_seg_tree.rs lines 264-289).  The
source guards the copy/build with `if size > 0`; for `size = 0` the guarded
loops do nothing, so the unguarded model below has the same value. -/
def LazySegTree.from_vec {T U : Type} (S : LazySpec T U) (values : List T) :
    LazySegTree T U :=
  let size := values.length
  let maxSize := size.nextPowerOfTwo
  let data := List.replicate (maxSize * 2) S.ID
  let data := writeLeaves data maxSize values
  let data := buildLoop S.ID S.op_on_data data (maxSize - 1)
  { size := size, maxSize := maxSize, data := data,
    tags := List.replicate (maxSize * 2) none }

/-- `LazySegTree::from_slice` (src/lazy_seg_tree.rs lines 217-239):
same construction as `from_vec`, cloning from a borrowed slice. -/
def LazySegTree.from_slice {T U : Type} (S : LazySpec T U) (values : List T) :
    LazySegTree T U :=
  LazySegTree.from_vec S values

/-- `LazySegTree::combine_tag_option` (src/lazy_seg_tree.rs lines 372-378):
compose into an existing tag or install the new one. -/
def combine_tag_option {T U : Type} (S : LazySpec T U)
    (existing : Option U) (new_tag : U) : Option U :=
  match existing with
  | some e => some (S.op_on_update e new_tag)
  | none => some new_tag

/-- `LazySegTree::push` / `push_mut` (src/lazy_seg_tree.rs lines 387-398 and
403-414; the two are identical up to `RefCell` borrowing): take the pending
tag at `index`, apply it to the node's data for `node_size` covered leaves,
and compose it into both children's tags when `index` is internal. -/
def LazySegTree.push {T U : Type} (S : LazySpec T U) (t : LazySegTree T U)
    (index node_size : Nat) : LazySegTree T U :=
  match t.tags.getD index none with
  | some tag =>
    let data := t.data.set index (S.op_update_on_data tag (t.data.getD index S.ID) node_size)
    let tags := t.tags.set index none
    if index < t.maxSize then
      let tags := tags.set (index * 2) (combine_tag_option S (tags.getD (index * 2) none) tag)
      let tags := tags.set (index * 2 + 1) (combine_tag_option S (tags.getD (index * 2 + 1) none) tag)
      { t with data := data, tags := tags }
    else
      { t with data := data, tags := tags }
  | none => t

/-- `LazySegTree::pull_mut` (src/lazy_seg_tree.rs lines 420-425): recompute
a node's data from its two children. -/
def LazySegTree.pull_mut {T U : Type} (S : LazySpec T U) (t : LazySegTree T U)
    (index : Nat) : LazySegTree T U :=
  { t with data := (t.data.set index
      (S.op_on_data (t.data.getD (index * 2) S.ID) (t.data.getD (index * 2 + 1) S.ID))) }

/-- `LazySegTree::query_internal` (src/lazy_seg_tree.rs lines 436-463).
Since `push` mutates through the `RefCell`, the model returns the value
together with the resulting state. -/
def LazySegTree.query_internal {T U : Type} (S : LazySpec T U) (t : LazySegTree T U)
    (index node_left left right node_right : Nat) : T × LazySegTree T U :=
  if h1 : node_right ≤ left ∨ right ≤ node_left then
    (S.ID, t)
  else
    let t := LazySegTree.push S t index (node_right - node_left)
    if h2 : left ≤ node_left ∧ node_right ≤ right then
      (t.data.getD index S.ID, t)
    else
      let mid := (node_left + node_right) / 2
      let lr := LazySegTree.query_internal S t (index * 2) node_left left right mid
      let rr := LazySegTree.query_internal S lr.2 (index * 2 + 1) mid left right node_right
      (S.op_on_data lr.1 rr.1, rr.2)
termination_by node_right - node_left
decreasing_by
  all_goals omega

/-- `LazySegTree::update_internal` (src/lazy_seg_tree.rs lines 475-504). -/
def LazySegTree.update_internal {T U : Type} (S : LazySpec T U) (t : LazySegTree T U)
    (index node_left left right node_right : Nat) (value : U) : LazySegTree T U :=
  if h1 : node_right ≤ left ∨ right ≤ node_left then
    LazySegTree.push S t index (node_right - node_left)
  else if h2 : left ≤ node_left ∧ node_right ≤ right then
    let t := { t with tags := t.tags.set index (combine_tag_option S (t.tags.getD index none) value) }
    LazySegTree.push S t index (node_right - node_left)
  else
    let t := LazySegTree.push S t index (node_right - node_left)
    let mid := (node_left + node_right) / 2
    let t := LazySegTree.update_internal S t (index * 2) node_left left right mid value
    let t := LazySegTree.update_internal S t (index * 2 + 1) mid left right node_right value
    LazySegTree.pull_mut S t index
termination_by node_right - node_left
decreasing_by
  all_goals omega

/-- `LazySegTree::query` (src/lazy_seg_tree.rs lines 319-328) on an
already-parsed half-open range. -/
def LazySegTree.query {T U : Type} (S : LazySpec T U) (t : LazySegTree T U)
    (left right : Nat) : Except RQError (T × LazySegTree T U) :=
  if validate_range left right t.size then
    if left = right then .ok (S.ID, t)
    else .ok (LazySegTree.query_internal S t 1 0 left right t.maxSize)
  else .error .invalidRange

/-- `LazySegTree::update` (src/lazy_seg_tree.rs lines 355-364) on an
already-parsed half-open range. -/
def LazySegTree.update {T U : Type} (S : LazySpec T U) (t : LazySegTree T U)
    (left right : Nat) (value : U) : Except RQError (LazySegTree T U) :=
  if validate_range left right t.size then
    if left = right then .ok t
    else .ok (LazySegTree.update_internal S t 1 0 left right t.maxSize value)
  else .error .invalidRange

/-- `LazySegTree::query` with a `RangeBounds` argument. -/
def LazySegTree.queryBounds {T U : Type} (S : LazySpec T U) (t : LazySegTree T U)
    (sb eb : RBound) : Except RQError (T × LazySegTree T U) :=
  let (left, right) := parse_range sb eb t.size
  LazySegTree.query S t left right

/-- `LazySegTree::update` with a `RangeBounds` argument. -/
def LazySegTree.updateBounds {T U : Type} (S : LazySpec T U) (t : LazySegTree T U)
    (sb eb : RBound) (value : U) : Except RQError (LazySegTree T U) :=
  let (left, right) := parse_range sb eb t.size
  LazySegTree.update S t left right value

/-- The range-add / range-sum instance used by the crate's own tests and the
spec's concrete scenario: `ID = 0`, both combines are `+`, and
`apply(u, d, n) = d + u * n` (helpers/lazy_seg_tree_add_sum.rs). -/
def AddSum : LazySpec Int Int where
  ID := 0
  op_on_data := fun a b => a + b
  op_on_update := fun a b => a + b
  op_update_on_data := fun u d n => d + u * (n : Int)

/-- The sum instance for the plain tree (helpers/seg_tree_sum.rs). -/
def SumSpec : SegSpec Int where
  ID := 0
  op := fun a b => a + b

/-- Resolve an optional tag against a stored value: the "effective value"
`tags[i]` present ? `apply(tags[i], data[i], n)` : `data[i]`. -/
def applyOpt {T U : Type} (S : LazySpec T U) : Option U → T → Nat → T
  | some u, d, n => S.op_update_on_data u d n
  | none, d, _ => d

/-- Fold `op_on_data` over a list, starting from `ID` (the reference
aggregate of a sequence of logical elements). -/
def foldD {T U : Type} (S : LazySpec T U) (l : List T) : T :=
  l.foldr S.op_on_data S.ID

/-- Fold a `SegSpec` operation over a list, starting from `ID`. -/
def foldS {T : Type} (S : SegSpec T) (l : List T) : T :=
  l.foldr S.op S.ID

/-- Apply a lazy update value to every element of a reference sequence whose
absolute position (the head of `xs` sits at position `p`) lies in `[l, r)`;
each element counts as a single covered leaf. -/
def applyBetween {T U : Type} (S : LazySpec T U) (v : U) (l r : Nat) :
    Nat → List T → List T
  | _, [] => []
  | p, x :: xs =>
    (if l ≤ p ∧ p < r then S.op_update_on_data v x 1 else x) ::
      applyBetween S v l r (p + 1) xs

/-- A public lazy-tree call: a range update or a range query, both over an
already-parsed half-open range. -/
inductive Op (U : Type) where
  | update (left right : Nat) (value : U)
  | query (left right : Nat)

/-- Run a sequence of interleaved calls against the lazy tree, collecting
the query answers in order; any validation failure aborts the run. -/
def runOps {T U : Type} (S : LazySpec T U) (t : LazySegTree T U) :
    List (Op U) → Except RQError (LazySegTree T U × List T)
  | [] => .ok (t, [])
  | .update l r v :: rest => do
      let t2 ← LazySegTree.update S t l r v
      runOps S t2 rest
  | .query l r :: rest => do
      let p ← LazySegTree.query S t l r
      let q ← runOps S p.2 rest
      pure (q.1, p.1 :: q.2)

/-- Run the same call sequence against a reference plain sequence: updates
apply the value to every position in range, queries fold `op_on_data` over
the positions `[l, r)`.  Returns the answers in order. -/
def runRef {T U : Type} (S : LazySpec T U) (m : List T) : List (Op U) → List T
  | [] => []
  | .update l r v :: rest => runRef S (applyBetween S v l r 0 m) rest
  | .query l r :: rest => foldD S ((m.drop l).take (r - l)) :: runRef S m rest

/-- Validity of a call against a logical size (the `validate_range`
precondition). -/
def opValid {U : Type} (size : Nat) : Op U → Prop
  | .update l r _ => l ≤ r ∧ r ≤ size
  | .query l r => l ≤ r ∧ r ≤ size

/-- The trait laws assumed of a `LazySegTreeSpec` implementation:
`op_on_data` is a monoid with identity `ID`; `op_on_update` is associative
and composes in applied-later order (`compose_apply`); applying an update
distributes over combination of adjacent non-empty blocks. -/
structure LazyLaws {T U : Type} (S : LazySpec T U) : Prop where
  op_assoc : ∀ a b c, S.op_on_data (S.op_on_data a b) c = S.op_on_data a (S.op_on_data b c)
  id_left : ∀ a, S.op_on_data S.ID a = a
  id_right : ∀ a, S.op_on_data a S.ID = a
  compose_assoc : ∀ a b c,
    S.op_on_update (S.op_on_update a b) c = S.op_on_update a (S.op_on_update b c)
  compose_apply : ∀ u1 u2 d n,
    S.op_update_on_data (S.op_on_update u1 u2) d n
      = S.op_update_on_data u2 (S.op_update_on_data u1 d n) n
  apply_distrib : ∀ u a b m n, 0 < m → 0 < n →
    S.op_update_on_data u (S.op_on_data a b) (m + n)
      = S.op_on_data (S.op_update_on_data u a m) (S.op_update_on_data u b n)

/-- The monoid laws assumed of a `SegTreeSpec` implementation. -/
structure SegLaws {T : Type} (S : SegSpec T) : Prop where
  op_assoc : ∀ a b c, S.op (S.op a b) c = S.op a (S.op b c)
  id_left : ∀ a, S.op S.ID a = a
  id_right : ∀ a, S.op a S.ID = a

/-- Apply an update to every element of a block, each element counting as a
single covered leaf. -/
def applyList {T U : Type} (S : LazySpec T U) (u : U) (l : List T) : List T :=
  l.map (fun x => S.op_update_on_data u x 1)

/-- `applyList` under an optional tag. -/
def applyOptList {T U : Type} (S : LazySpec T U) : Option U → List T → List T
  | some u, l => applyList S u l
  | none, l => l

/-- The denotation of the subtree rooted at node `index` covering the
half-open leaf interval `[lo, hi)`: the per-position logical values the
subtree currently represents, taking the node's own pending tag and all
descendant tags into account (but not the tags of its ancestors). -/
def D {T U : Type} (S : LazySpec T U) (t : LazySegTree T U)
    (index lo hi : Nat) : List T :=
  if h : hi ≤ lo + 1 then
    [applyOpt S (t.tags.getD index none) (t.data.getD index S.ID) 1]
  else
    applyOptList S (t.tags.getD index none)
      (D S t (index * 2) lo ((lo + hi) / 2) ++ D S t (index * 2 + 1) ((lo + hi) / 2) hi)
termination_by hi - lo
decreasing_by
  all_goals omega

/-- The lazy-propagation structural invariant for the subtree rooted at
`index` over `[lo, hi)`: every internal node's stored data equals the fold
of its children's denotations (so the node's data is correct modulo its own
pending tag, which `D` accounts for). -/
def LazyInv {T U : Type} (S : LazySpec T U) (t : LazySegTree T U)
    (index lo hi : Nat) : Prop :=
  if h : hi ≤ lo + 1 then True
  else
    t.data.getD index S.ID
        = foldD S (D S t (index * 2) lo ((lo + hi) / 2) ++ D S t (index * 2 + 1) ((lo + hi) / 2) hi)
      ∧ LazyInv S t (index * 2) lo ((lo + hi) / 2)
      ∧ LazyInv S t (index * 2 + 1) ((lo + hi) / 2) hi
termination_by hi - lo
decreasing_by
  all_goals omega

/-- `k` lies in the (index-)subtree rooted at `i`: repeatedly halving `k`
reaches `i`. -/
def subtreeIdx (i k : Nat) : Prop := ∃ d, k / 2 ^ d = i

/-- Well-formedness of a node visit in a tree with `2^h` leaves: at depth
`d`, node `index` covers `[lo, hi)` with `hi - lo = 2^(h-d)` leaves, exactly
as the recursive descent from the root (`index = 1`, `[0, 2^h)`)
establishes. -/
structure NodeOK (h d index lo hi : Nat) : Prop where
  dle : d ≤ h
  ile : 2 ^ d ≤ index
  ilt : index < 2 ^ (d + 1)
  lo_eq : lo = (index - 2 ^ d) * 2 ^ (h - d)
  hi_eq : hi = lo + 2 ^ (h - d)

/-- Representation predicate tying a lazy tree state to the reference
sequence `m` it denotes: structural well-formedness of the arrays plus the
lazy invariant, with the root denotation equal to `m` padded with identity
elements up to the power-of-two leaf count. -/
structure LazyRepr {T U : Type} (S : LazySpec T U) (t : LazySegTree T U)
    (m : List T) : Prop where
  pow : ∃ hh, t.maxSize = 2 ^ hh
  size_le : t.size ≤ t.maxSize
  mlen : m.length = t.size
  dlen : t.data.length = 2 * t.maxSize
  tlen : t.tags.length = 2 * t.maxSize
  inv : LazyInv S t 1 0 t.maxSize
  den : D S t 1 0 t.maxSize = m ++ List.replicate (t.maxSize - t.size) S.ID

/-- States of a lazy tree reachable from construction through successful
public calls, together with the reference sequence obtained by replaying
the same updates on a plain sequence. -/
inductive Reach {T U : Type} (S : LazySpec T U) :
    LazySegTree T U → List T → Prop where
  | from_vec (values : List T) : Reach S (LazySegTree.from_vec S values) values
  | from_slice (values : List T) : Reach S (LazySegTree.from_slice S values) values
  | new (n : Nat) : Reach S (LazySegTree.new S n) (List.replicate n S.ID)
  | update {t m t2 : _} {l r : Nat} {v : U} : Reach S t m →
      LazySegTree.update S t l r v = .ok t2 →
      Reach S t2 (applyBetween S v l r 0 m)
  | query {t m t2 : _} {a : T} {l r : Nat} : Reach S t m →
      LazySegTree.query S t l r = .ok (a, t2) →
      Reach S t2 m

/-- States of a plain segment tree reachable from construction through
successful point updates (queries take `&self` and cannot mutate). -/
inductive SegReach {T : Type} (S : SegSpec T) : SegTree T → Prop where
  | from_vec (values : List T) : SegReach S (SegTree.from_vec S values)
  | from_slice (values : List T) : SegReach S (SegTree.from_slice S values)
  | new (n : Nat) : SegReach S (SegTree.new S n)
  | update {t t2 : _} {i : Nat} {v : T} : SegReach S t →
      SegTree.update S t i v = .ok t2 → SegReach S t2

/-- The aggregation-tree invariant of the spec: every internal node stores
the combination of its two children. -/
def SegInv {T : Type} (S : SegSpec T) (t : SegTree T) : Prop :=
  ∀ i, 1 ≤ i → i < t.maxSize →
    t.data.getD i S.ID = S.op (t.data.getD (2 * i) S.ID) (t.data.getD (2 * i + 1) S.ID)

/-- Fold the reference aggregate over positions `[l, r)` of a sequence. -/
def sliceFold {T U : Type} (S : LazySpec T U) (m : List T) (l r : Nat) : T :=
  foldD S ((m.drop l).take (r - l))

/-- Structural well-formedness of a lazy tree state: the leaf count is the
power of two `2^hh` and both flat arrays have length `2 * maxSize`. -/
structure StateOK {T U : Type} (t : LazySegTree T U) (hh : Nat) : Prop where
  pow : t.maxSize = 2 ^ hh
  dlen : t.data.length = 2 * t.maxSize
  tlen : t.tags.length = 2 * t.maxSize

/-- A call on a lazy tree left the scalar fields and array lengths
unchanged. -/
def ShapeOK {T U : Type} (t t2 : LazySegTree T U) : Prop :=
  t2.size = t.size ∧ t2.maxSize = t.maxSize
    ∧ t2.data.length = t.data.length ∧ t2.tags.length = t.tags.length

/-- A call rooted at node `index` did not change any array slot outside the
index-subtree of `index`. -/
def FrameOut {T U : Type} (S : LazySpec T U) (t t2 : LazySegTree T U)
    (index : Nat) : Prop :=
  ∀ k, ¬ subtreeIdx index k →
    t2.data.getD k S.ID = t.data.getD k S.ID ∧ t2.tags.getD k none = t.tags.getD k none

/-- Structural well-formedness of a plain segment tree: array length is
`2 * maxSize` and the logical size fits under the power-of-two leaf count. -/
def SegOK {T : Type} (t : SegTree T) : Prop :=
  t.data.length = 2 * t.maxSize ∧ t.size ≤ t.maxSize

/-- The internal-node equation of the aggregation tree on a raw array with
internal bound `B`. -/
def nodeEq {T : Type} (S : SegSpec T) (dd : List T) (B : Nat) : Prop :=
  ∀ k, 1 ≤ k → k < B →
    dd.getD k S.ID = S.op (dd.getD (k * 2) S.ID) (dd.getD (k * 2 + 1) S.ID)

-- ======================================================================
-- Theorems
-- ======================================================================

-- ## List access helpers

theorem getD_set_self {α : Type} (l : List α) (i : Nat) (a d : α) (h : i < l.length) :
    (l.set i a).getD i d = a := by
  simp [List.getD, List.getElem?_set_self h]

theorem getD_set_ne {α : Type} (l : List α) {i j : Nat} (a d : α) (h : i ≠ j) :
    (l.set i a).getD j d = l.getD j d := by
  simp [List.getD, List.getElem?_set_ne h]

theorem getD_replicate {α : Type} {n i : Nat} (a d : α) (h : i < n) :
    (List.replicate n a).getD i d = a := by
  simp [List.getD, List.getElem?_replicate, h]

-- ## Fold and block-apply algebra

theorem foldD_nil {T U : Type} (S : LazySpec T U) : foldD S ([] : List T) = S.ID := rfl

theorem foldD_cons {T U : Type} (S : LazySpec T U) (x : T) (l : List T) :
    foldD S (x :: l) = S.op_on_data x (foldD S l) := rfl

theorem foldD_op {T U : Type} {S : LazySpec T U} (L : LazyLaws S) (l : List T) (c : T) :
    l.foldr S.op_on_data c = S.op_on_data (foldD S l) c := by
  induction l with
  | nil => exact (L.id_left c).symm
  | cons x xs ih =>
    simp only [List.foldr_cons, ih, foldD_cons, L.op_assoc]

theorem foldD_append {T U : Type} {S : LazySpec T U} (L : LazyLaws S) (a b : List T) :
    foldD S (a ++ b) = S.op_on_data (foldD S a) (foldD S b) := by
  rw [foldD, List.foldr_append]
  exact foldD_op L a (foldD S b)

theorem foldD_singleton {T U : Type} {S : LazySpec T U} (L : LazyLaws S) (x : T) :
    foldD S [x] = x := by
  rw [foldD_cons, foldD_nil]
  exact L.id_right x

theorem applyList_cons {T U : Type} (S : LazySpec T U) (u : U) (x : T) (l : List T) :
    applyList S u (x :: l) = S.op_update_on_data u x 1 :: applyList S u l := rfl

theorem applyList_append {T U : Type} (S : LazySpec T U) (u : U) (a b : List T) :
    applyList S u (a ++ b) = applyList S u a ++ applyList S u b := by
  simp [applyList]

theorem applyList_length {T U : Type} (S : LazySpec T U) (u : U) (l : List T) :
    (applyList S u l).length = l.length := by
  simp [applyList]

theorem foldD_applyList {T U : Type} {S : LazySpec T U} (L : LazyLaws S) (u : U) :
    ∀ l : List T, l ≠ [] →
      foldD S (applyList S u l) = S.op_update_on_data u (foldD S l) l.length
  | [], h => absurd rfl h
  | [x], _ => by
    rw [applyList_cons, applyList]
    simp only [List.map_nil]
    rw [foldD_singleton L, foldD_singleton L]
    simp
  | x :: y :: ys, _ => by
    have ih := foldD_applyList L u (y :: ys) (by simp)
    have hd := L.apply_distrib u x (foldD S (y :: ys)) 1 (y :: ys).length
      (by omega) (by simp)
    calc foldD S (applyList S u (x :: y :: ys))
        = S.op_on_data (S.op_update_on_data u x 1) (foldD S (applyList S u (y :: ys))) := by
          rw [applyList_cons]; exact foldD_cons S _ _
      _ = S.op_on_data (S.op_update_on_data u x 1)
            (S.op_update_on_data u (foldD S (y :: ys)) (y :: ys).length) := by rw [ih]
      _ = S.op_update_on_data u (S.op_on_data x (foldD S (y :: ys))) (1 + (y :: ys).length) :=
          hd.symm
      _ = S.op_update_on_data u (foldD S (x :: y :: ys)) (x :: y :: ys).length := by
          rw [foldD_cons]
          congr 1
          simp [Nat.add_comm]

theorem applyOptList_none {T U : Type} (S : LazySpec T U) (l : List T) :
    applyOptList S none l = l := rfl

theorem applyOptList_some {T U : Type} (S : LazySpec T U) (u : U) (l : List T) :
    applyOptList S (some u) l = applyList S u l := rfl

theorem applyOptList_length {T U : Type} (S : LazySpec T U) (tg : Option U) (l : List T) :
    (applyOptList S tg l).length = l.length := by
  cases tg <;> simp [applyOptList, applyList]

theorem applyOptList_combine {T U : Type} {S : LazySpec T U} (L : LazyLaws S)
    (tg : Option U) (u : U) (l : List T) :
    applyOptList S (combine_tag_option S tg u) l = applyList S u (applyOptList S tg l) := by
  cases tg with
  | none => rfl
  | some e =>
    simp only [combine_tag_option, applyOptList, applyList, List.map_map]
    exact List.map_congr_left (fun x _ => L.compose_apply e u x 1)

-- ## Reference-sequence update lemmas

theorem applyBetween_length {T U : Type} (S : LazySpec T U) (v : U) (l r : Nat) :
    ∀ (p : Nat) (xs : List T), (applyBetween S v l r p xs).length = xs.length
  | _, [] => rfl
  | p, _ :: xs => by
    rw [applyBetween]
    simp only [List.length_cons]
    rw [applyBetween_length S v l r (p + 1) xs]

theorem applyBetween_disjoint {T U : Type} (S : LazySpec T U) (v : U) (l r : Nat) :
    ∀ (p : Nat) (xs : List T), (r ≤ p ∨ p + xs.length ≤ l) →
      applyBetween S v l r p xs = xs
  | _, [], _ => rfl
  | p, x :: xs, h => by
    rw [applyBetween, if_neg (by simp at h ⊢; omega),
      applyBetween_disjoint S v l r (p + 1) xs (by simp at h ⊢; omega)]

theorem applyBetween_covered {T U : Type} (S : LazySpec T U) (v : U) (l r : Nat) :
    ∀ (p : Nat) (xs : List T), l ≤ p → p + xs.length ≤ r →
      applyBetween S v l r p xs = applyList S v xs
  | _, [], _, _ => rfl
  | p, x :: xs, h1, h2 => by
    rw [applyBetween, if_pos (by simp at h2; omega), applyList_cons,
      applyBetween_covered S v l r (p + 1) xs (by omega) (by simp at h2 ⊢; omega)]

theorem applyBetween_append {T U : Type} (S : LazySpec T U) (v : U) (l r : Nat) :
    ∀ (p : Nat) (xs ys : List T),
      applyBetween S v l r p (xs ++ ys)
        = applyBetween S v l r p xs ++ applyBetween S v l r (p + xs.length) ys
  | _, [], ys => by simp [applyBetween]
  | p, x :: xs, ys => by
    rw [List.cons_append, applyBetween, applyBetween,
      applyBetween_append S v l r (p + 1) xs ys]
    simp only [List.cons_append, List.length_cons]
    congr 3
    omega

-- ## Index-subtree geometry

theorem subtreeIdx_self (i : Nat) : subtreeIdx i i := ⟨0, by simp⟩

theorem subtreeIdx_step {i c k : Nat} (hc : c / 2 = i) (h : subtreeIdx c k) :
    subtreeIdx i k := by
  obtain ⟨d, hd⟩ := h
  exact ⟨d + 1, by rw [Nat.pow_succ, ← Nat.div_div_eq_div_mul, hd, hc]⟩

theorem subtreeIdx_left {i k : Nat} (h : subtreeIdx (i * 2) k) : subtreeIdx i k :=
  subtreeIdx_step (by omega) h

theorem subtreeIdx_right {i k : Nat} (h : subtreeIdx (i * 2 + 1) k) : subtreeIdx i k :=
  subtreeIdx_step (by omega) h

theorem not_subtreeIdx_left_self {i : Nat} (hi : 1 ≤ i) : ¬ subtreeIdx (i * 2) i := by
  rintro ⟨d, hd⟩
  have : i / 2 ^ d ≤ i := Nat.div_le_self _ _
  omega

theorem not_subtreeIdx_right_self {i : Nat} : ¬ subtreeIdx (i * 2 + 1) i := by
  rintro ⟨d, hd⟩
  have : i / 2 ^ d ≤ i := Nat.div_le_self _ _
  omega

theorem subtreeIdx_trans {i j k : Nat} (h1 : subtreeIdx i j) (h2 : subtreeIdx j k) :
    subtreeIdx i k := by
  obtain ⟨a, ha⟩ := h1
  obtain ⟨b, hb⟩ := h2
  exact ⟨b + a, by rw [Nat.pow_add, ← Nat.div_div_eq_div_mul, hb, ha]⟩

theorem subtreeIdx_disjoint {i : Nat} (hi : 1 ≤ i) {k : Nat}
    (h1 : subtreeIdx (i * 2) k) (h2 : subtreeIdx (i * 2 + 1) k) : False := by
  obtain ⟨a, ha⟩ := h1
  obtain ⟨b, hb⟩ := h2
  rcases le_or_lt a b with hab | hab
  · have hsplit : k / 2 ^ b = (k / 2 ^ a) / 2 ^ (b - a) := by
      rw [Nat.div_div_eq_div_mul, ← Nat.pow_add]
      congr 2
      omega
    rw [ha] at hsplit
    rcases Nat.eq_or_lt_of_le hab with heq | hlt
    · subst heq
      omega
    · have h2le : 2 ≤ 2 ^ (b - a) := by
        have : 2 ^ 1 ≤ 2 ^ (b - a) := Nat.pow_le_pow_right (by omega) (by omega)
        simpa using this
      have : i * 2 / 2 ^ (b - a) ≤ i * 2 / 2 := Nat.div_le_div_left h2le (by omega)
      omega
  · have hsplit : k / 2 ^ a = (k / 2 ^ b) / 2 ^ (a - b) := by
      rw [Nat.div_div_eq_div_mul, ← Nat.pow_add]
      congr 2
      omega
    rw [hb] at hsplit
    have h2le : 2 ≤ 2 ^ (a - b) := by
      have : 2 ^ 1 ≤ 2 ^ (a - b) := Nat.pow_le_pow_right (by omega) (by omega)
      simpa using this
    have : (i * 2 + 1) / 2 ^ (a - b) ≤ (i * 2 + 1) / 2 := Nat.div_le_div_left h2le (by omega)
    omega

theorem subtreeIdx_split {i k : Nat} (h : subtreeIdx i k) (hne : k ≠ i) :
    subtreeIdx (i * 2) k ∨ subtreeIdx (i * 2 + 1) k := by
  obtain ⟨d, hd⟩ := h
  match d with
  | 0 => simp at hd; omega
  | e + 1 =>
    have hsplit : k / 2 ^ (e + 1) = (k / 2 ^ e) / 2 := by
      rw [Nat.div_div_eq_div_mul, ← Nat.pow_succ]
    rw [hsplit] at hd
    rcases Nat.even_or_odd (k / 2 ^ e) with he | he
    · left
      obtain ⟨c, hc⟩ := he
      exact ⟨e, by omega⟩
    · right
      obtain ⟨c, hc⟩ := he
      exact ⟨e, by omega⟩

-- ## Denotation and invariant basics

theorem D_length {T U : Type} (S : LazySpec T U) (t : LazySegTree T U)
    (index lo hi : Nat) : lo < hi → (D S t index lo hi).length = hi - lo := by
  induction index, lo, hi using D.induct (S := S) (t := t) with
  | case1 index lo hi hle =>
    intro hlt
    rw [D.eq_def, dif_pos hle]
    simp only [List.length_cons, List.length_nil]
    omega
  | case2 index lo hi hle ih1 ih2 =>
    intro hlt
    rw [D.eq_def, dif_neg hle]
    rw [applyOptList_length, List.length_append, ih1 (by omega), ih2 (by omega)]
    omega

theorem D_ne_nil {T U : Type} (S : LazySpec T U) (t : LazySegTree T U)
    {index lo hi : Nat} (hlt : lo < hi) : D S t index lo hi ≠ [] := by
  intro hc
  have := D_length S t index lo hi hlt
  rw [hc] at this
  simp at this
  omega

theorem D_congr {T U : Type} (S : LazySpec T U) (t t2 : LazySegTree T U)
    (index lo hi : Nat) :
    (∀ k, subtreeIdx index k → t2.data.getD k S.ID = t.data.getD k S.ID) →
    (∀ k, subtreeIdx index k → t2.tags.getD k none = t.tags.getD k none) →
    D S t2 index lo hi = D S t index lo hi := by
  induction index, lo, hi using D.induct (S := S) (t := t) with
  | case1 index lo hi hle =>
    intro hd ht
    rw [D.eq_def (t := t2), D.eq_def (t := t), dif_pos hle, dif_pos hle,
      hd index (subtreeIdx_self index), ht index (subtreeIdx_self index)]
  | case2 index lo hi hle ih1 ih2 =>
    intro hd ht
    rw [D.eq_def (t := t2), D.eq_def (t := t), dif_neg hle, dif_neg hle,
      ht index (subtreeIdx_self index),
      ih1 (fun k hk => hd k (subtreeIdx_left hk)) (fun k hk => ht k (subtreeIdx_left hk)),
      ih2 (fun k hk => hd k (subtreeIdx_right hk)) (fun k hk => ht k (subtreeIdx_right hk))]

theorem LazyInv_congr {T U : Type} (S : LazySpec T U) (t t2 : LazySegTree T U)
    (index lo hi : Nat) :
    1 ≤ index →
    (∀ k, subtreeIdx index k → t2.data.getD k S.ID = t.data.getD k S.ID) →
    (∀ k, subtreeIdx index k → k ≠ index → t2.tags.getD k none = t.tags.getD k none) →
    (LazyInv S t2 index lo hi = LazyInv S t index lo hi) := by
  induction index, lo, hi using LazyInv.induct (S := S) (t := t) with
  | case1 index lo hi hle =>
    intro _ _ _
    rw [LazyInv.eq_def (t := t2), LazyInv.eq_def (t := t), dif_pos hle, dif_pos hle]
  | case2 index lo hi hle ih1 ih2 =>
    intro hidx hd ht
    have hne_l : ∀ k, subtreeIdx (index * 2) k → k ≠ index := by
      intro k hk hkk
      subst hkk
      exact not_subtreeIdx_left_self hidx hk
    have hne_r : ∀ k, subtreeIdx (index * 2 + 1) k → k ≠ index := by
      intro k hk hkk
      subst hkk
      exact not_subtreeIdx_right_self hk
    rw [LazyInv.eq_def (t := t2), LazyInv.eq_def (t := t), dif_neg hle, dif_neg hle,
      hd index (subtreeIdx_self index),
      D_congr S t t2 (index * 2) lo ((lo + hi) / 2)
        (fun k hk => hd k (subtreeIdx_left hk))
        (fun k hk => ht k (subtreeIdx_left hk) (hne_l k hk)),
      D_congr S t t2 (index * 2 + 1) ((lo + hi) / 2) hi
        (fun k hk => hd k (subtreeIdx_right hk))
        (fun k hk => ht k (subtreeIdx_right hk) (hne_r k hk)),
      ih1 (by omega) (fun k hk => hd k (subtreeIdx_left hk))
        (fun k hk _ => ht k (subtreeIdx_left hk) (hne_l k hk)),
      ih2 (by omega) (fun k hk => hd k (subtreeIdx_right hk))
        (fun k hk _ => ht k (subtreeIdx_right hk) (hne_r k hk))]

-- ## Node geometry

theorem NodeOK.root (h : Nat) : NodeOK h 0 1 0 (2 ^ h) := by
  refine ⟨Nat.zero_le h, by norm_num, by norm_num, by norm_num, by norm_num⟩

theorem NodeOK.size_eq {h d i lo hi : Nat} (n : NodeOK h d i lo hi) :
    hi - lo = 2 ^ (h - d) := by
  have h1 := n.hi_eq
  have h2 : 0 < 2 ^ (h - d) := Nat.pos_pow_of_pos _ (by omega)
  omega

theorem NodeOK.lo_lt_hi {h d i lo hi : Nat} (n : NodeOK h d i lo hi) : lo < hi := by
  have h1 := n.hi_eq
  have h2 : 0 < 2 ^ (h - d) := Nat.pos_pow_of_pos _ (by omega)
  omega

theorem NodeOK.index_pos {h d i lo hi : Nat} (n : NodeOK h d i lo hi) : 1 ≤ i := by
  have h1 := n.ile
  have h2 : 0 < 2 ^ d := Nat.pos_pow_of_pos _ (by omega)
  omega

theorem NodeOK.depth_lt {h d i lo hi : Nat} (n : NodeOK h d i lo hi)
    (hbig : ¬ (hi ≤ lo + 1)) : d < h := by
  have h1 := n.size_eq
  have h2 := n.dle
  rcases Nat.eq_or_lt_of_le h2 with heq | hlt
  · subst heq
    simp at h1
    omega
  · exact hlt

theorem NodeOK.left {h d i lo hi : Nat} (n : NodeOK h d i lo hi)
    (hbig : ¬ (hi ≤ lo + 1)) : NodeOK h (d + 1) (i * 2) lo ((lo + hi) / 2) := by
  have hdh := n.depth_lt hbig
  have hia := n.ile
  have hib := n.ilt
  have hlo := n.lo_eq
  have hhi := n.hi_eq
  obtain ⟨j, hj⟩ : ∃ j, i = 2 ^ d + j := ⟨i - 2 ^ d, by omega⟩
  have hsz : 2 ^ (h - d) = 2 * 2 ^ (h - (d + 1)) := by
    rw [← Nat.pow_succ']
    congr 1
    omega
  have hpd : 2 ^ (d + 1) = 2 * 2 ^ d := by
    rw [Nat.pow_succ]
    ring
  refine ⟨by omega, by omega, ?_, ?_, ?_⟩
  · have : 2 ^ (d + 1 + 1) = 2 * 2 ^ (d + 1) := by rw [Nat.pow_succ]; ring
    omega
  · subst hj
    rw [hlo, hsz, hpd]
    have he1 : 2 ^ d + j - 2 ^ d = j := by omega
    have he2 : (2 ^ d + j) * 2 - 2 * 2 ^ d = 2 * j := by omega
    rw [he1, he2]
    ring
  · rw [hhi, hsz]
    omega

theorem NodeOK.right {h d i lo hi : Nat} (n : NodeOK h d i lo hi)
    (hbig : ¬ (hi ≤ lo + 1)) : NodeOK h (d + 1) (i * 2 + 1) ((lo + hi) / 2) hi := by
  have hdh := n.depth_lt hbig
  have hia := n.ile
  have hib := n.ilt
  have hlo := n.lo_eq
  have hhi := n.hi_eq
  obtain ⟨j, hj⟩ : ∃ j, i = 2 ^ d + j := ⟨i - 2 ^ d, by omega⟩
  have hsz : 2 ^ (h - d) = 2 * 2 ^ (h - (d + 1)) := by
    rw [← Nat.pow_succ']
    congr 1
    omega
  have hpd : 2 ^ (d + 1) = 2 * 2 ^ d := by
    rw [Nat.pow_succ]
    ring
  refine ⟨by omega, by omega, ?_, ?_, ?_⟩
  · have : 2 ^ (d + 1 + 1) = 2 * 2 ^ (d + 1) := by rw [Nat.pow_succ]; ring
    omega
  · subst hj
    rw [hhi, hlo, hsz, hpd]
    have he1 : 2 ^ d + j - 2 ^ d = j := by omega
    have he2 : (2 ^ d + j) * 2 + 1 - 2 * 2 ^ d = 2 * j + 1 := by omega
    rw [he1, he2]
    have hx : j * (2 * 2 ^ (h - (d + 1))) = 2 * (j * 2 ^ (h - (d + 1))) := by ring
    have hy : (2 * j + 1) * 2 ^ (h - (d + 1))
        = 2 * (j * 2 ^ (h - (d + 1))) + 2 ^ (h - (d + 1)) := by ring
    rw [hx, hy]
    omega
  · rw [hhi, hsz]
    omega

theorem NodeOK.leaf_big {h d i lo hi : Nat} (n : NodeOK h d i lo hi)
    (hle : hi ≤ lo + 1) : 2 ^ h ≤ i := by
  have h1 := n.size_eq
  have h2 := n.dle
  have h3 := n.ile
  have h4 := n.lo_lt_hi
  have hd : h = d := by
    by_contra hc
    have : 1 ≤ h - d := by omega
    have : 2 ^ 1 ≤ 2 ^ (h - d) := Nat.pow_le_pow_right (by omega) this
    simp at this
    omega
  subst hd
  exact h3

theorem NodeOK.internal_small {h d i lo hi : Nat} (n : NodeOK h d i lo hi)
    (hbig : ¬ (hi ≤ lo + 1)) : i < 2 ^ h := by
  have h1 := n.depth_lt hbig
  have h2 := n.ilt
  have : 2 ^ (d + 1) ≤ 2 ^ h := Nat.pow_le_pow_right (by omega) (by omega)
  omega

theorem NodeOK.index_lt {h d i lo hi : Nat} (n : NodeOK h d i lo hi) :
    i < 2 * 2 ^ h := by
  have h1 := n.ilt
  have h2 := n.dle
  have : 2 ^ (d + 1) ≤ 2 ^ (h + 1) := Nat.pow_le_pow_right (by omega) (by omega)
  have : 2 ^ (h + 1) = 2 * 2 ^ h := by rw [Nat.pow_succ]; ring
  omega

theorem NodeOK.hi_le {h d i lo hi : Nat} (n : NodeOK h d i lo hi) : hi ≤ 2 ^ h := by
  have hia := n.ile
  have hib := n.ilt
  have hlo := n.lo_eq
  have hhi := n.hi_eq
  have hdl := n.dle
  obtain ⟨j, hj⟩ : ∃ j, i = 2 ^ d + j := ⟨i - 2 ^ d, by omega⟩
  subst hj
  have he1 : 2 ^ d + j - 2 ^ d = j := by omega
  rw [hlo, he1] at hhi
  have hj2 : j + 1 ≤ 2 ^ d := by
    have : 2 ^ (d + 1) = 2 * 2 ^ d := by rw [Nat.pow_succ]; ring
    omega
  have hmul : (j + 1) * 2 ^ (h - d) ≤ 2 ^ d * 2 ^ (h - d) :=
    Nat.mul_le_mul_right _ hj2
  have hpow : 2 ^ d * 2 ^ (h - d) = 2 ^ h := by
    rw [← Nat.pow_add]
    congr 1
    omega
  calc hi = (j + 1) * 2 ^ (h - d) := by rw [hhi]; ring
    _ ≤ 2 ^ d * 2 ^ (h - d) := hmul
    _ = 2 ^ h := hpow

-- ## Push lemmas

theorem getD_some_lt {U : Type} {l : List (Option U)} {i : Nat} {x : U}
    (h : l.getD i none = some x) : i < l.length := by
  by_contra hc
  rw [List.getD_eq_default _ _ (by omega)] at h
  exact Option.noConfusion h

theorem push_none {T U : Type} (S : LazySpec T U) (t : LazySegTree T U)
    {index : Nat} (n : Nat) (htg : t.tags.getD index none = none) :
    LazySegTree.push S t index n = t := by
  rw [LazySegTree.push, htg]

theorem push_some {T U : Type} (S : LazySpec T U) (t : LazySegTree T U)
    {index : Nat} (n : Nat) {tag : U} (htg : t.tags.getD index none = some tag) :
    LazySegTree.push S t index n =
      if index < t.maxSize then
        { t with
          data := t.data.set index (S.op_update_on_data tag (t.data.getD index S.ID) n),
          tags := ((t.tags.set index none).set (index * 2)
              (combine_tag_option S ((t.tags.set index none).getD (index * 2) none) tag)).set
              (index * 2 + 1)
              (combine_tag_option S
                (((t.tags.set index none).set (index * 2)
                  (combine_tag_option S ((t.tags.set index none).getD (index * 2) none) tag)).getD
                  (index * 2 + 1) none) tag) }
      else
        { t with
          data := t.data.set index (S.op_update_on_data tag (t.data.getD index S.ID) n),
          tags := t.tags.set index none } := by
  rw [LazySegTree.push, htg]

theorem push_size {T U : Type} (S : LazySpec T U) (t : LazySegTree T U)
    (index n : Nat) : (LazySegTree.push S t index n).size = t.size := by
  cases htg : t.tags.getD index none with
  | none => rw [push_none S t n htg]
  | some tag =>
    rw [push_some S t n htg]
    split <;> rfl

theorem push_maxSize {T U : Type} (S : LazySpec T U) (t : LazySegTree T U)
    (index n : Nat) : (LazySegTree.push S t index n).maxSize = t.maxSize := by
  cases htg : t.tags.getD index none with
  | none => rw [push_none S t n htg]
  | some tag =>
    rw [push_some S t n htg]
    split <;> rfl

theorem push_data_length {T U : Type} (S : LazySpec T U) (t : LazySegTree T U)
    (index n : Nat) : (LazySegTree.push S t index n).data.length = t.data.length := by
  cases htg : t.tags.getD index none with
  | none => rw [push_none S t n htg]
  | some tag =>
    rw [push_some S t n htg]
    split <;> simp

theorem push_tags_length {T U : Type} (S : LazySpec T U) (t : LazySegTree T U)
    (index n : Nat) : (LazySegTree.push S t index n).tags.length = t.tags.length := by
  cases htg : t.tags.getD index none with
  | none => rw [push_none S t n htg]
  | some tag =>
    rw [push_some S t n htg]
    split <;> simp

theorem push_data_getD_ne {T U : Type} (S : LazySpec T U) (t : LazySegTree T U)
    (index n : Nat) {k : Nat} (hk : k ≠ index) :
    (LazySegTree.push S t index n).data.getD k S.ID = t.data.getD k S.ID := by
  cases htg : t.tags.getD index none with
  | none => rw [push_none S t n htg]
  | some tag =>
    rw [push_some S t n htg]
    split <;> exact getD_set_ne _ _ _ (by omega)

theorem push_tags_getD_ne {T U : Type} (S : LazySpec T U) (t : LazySegTree T U)
    (index n : Nat) {k : Nat} (hk : k ≠ index) (hkl : k ≠ index * 2)
    (hkr : k ≠ index * 2 + 1) :
    (LazySegTree.push S t index n).tags.getD k none = t.tags.getD k none := by
  cases htg : t.tags.getD index none with
  | none => rw [push_none S t n htg]
  | some tag =>
    rw [push_some S t n htg]
    split
    · show ((_ : List (Option U)).set _ _).getD k none = _
      rw [getD_set_ne _ _ _ (by omega), getD_set_ne _ _ _ (by omega),
        getD_set_ne _ _ _ (by omega)]
    · exact getD_set_ne _ _ _ (by omega)

theorem push_frame {T U : Type} (S : LazySpec T U) (t : LazySegTree T U)
    {index : Nat} (n : Nat) (hidx : 1 ≤ index) {k : Nat}
    (hk : ¬ subtreeIdx index k) :
    (LazySegTree.push S t index n).data.getD k S.ID = t.data.getD k S.ID
      ∧ (LazySegTree.push S t index n).tags.getD k none = t.tags.getD k none := by
  have h1 : k ≠ index := fun hc => hk (hc ▸ subtreeIdx_self index)
  have h2 : k ≠ index * 2 := fun hc =>
    hk (hc ▸ subtreeIdx_left (subtreeIdx_self (index * 2)))
  have h3 : k ≠ index * 2 + 1 := fun hc =>
    hk (hc ▸ subtreeIdx_right (subtreeIdx_self (index * 2 + 1)))
  exact ⟨push_data_getD_ne S t index n h1, push_tags_getD_ne S t index n h1 h2 h3⟩

theorem push_tag_self {T U : Type} (S : LazySpec T U) (t : LazySegTree T U)
    {index : Nat} (n : Nat) (hidx : 1 ≤ index) :
    (LazySegTree.push S t index n).tags.getD index none = none := by
  cases htg : t.tags.getD index none with
  | none => rw [push_none S t n htg, htg]
  | some tag =>
    have hlen : index < t.tags.length := getD_some_lt htg
    rw [push_some S t n htg]
    split
    · show ((_ : List (Option U)).set _ _).getD index none = _
      rw [getD_set_ne _ _ _ (by omega), getD_set_ne _ _ _ (by omega)]
      exact getD_set_self _ _ _ _ (by  simpa using hlen)
    · exact getD_set_self _ _ _ _ (by simpa using hlen)

theorem push_data_getD_self {T U : Type} (S : LazySpec T U) (t : LazySegTree T U)
    {index : Nat} (n : Nat) {tag : U} (htg : t.tags.getD index none = some tag)
    (hlen : index < t.data.length) :
    (LazySegTree.push S t index n).data.getD index S.ID
      = S.op_update_on_data tag (t.data.getD index S.ID) n := by
  rw [push_some S t n htg]
  split <;> exact getD_set_self _ _ _ _ (by simpa using hlen)

theorem push_tags_getD_left {T U : Type} (S : LazySpec T U) (t : LazySegTree T U)
    {index : Nat} (n : Nat) {tag : U} (htg : t.tags.getD index none = some tag)
    (hidx : 1 ≤ index) (hlt : index < t.maxSize) (hlen : index * 2 < t.tags.length) :
    (LazySegTree.push S t index n).tags.getD (index * 2) none
      = combine_tag_option S (t.tags.getD (index * 2) none) tag := by
  rw [push_some S t n htg, if_pos hlt]
  show ((_ : List (Option U)).set _ _).getD (index * 2) none = _
  rw [getD_set_ne _ _ _ (by omega)]
  rw [getD_set_self _ _ _ _ (by simpa using hlen)]
  rw [getD_set_ne _ _ _ (by omega)]

theorem push_tags_getD_right {T U : Type} (S : LazySpec T U) (t : LazySegTree T U)
    {index : Nat} (n : Nat) {tag : U} (htg : t.tags.getD index none = some tag)
    (hidx : 1 ≤ index) (hlt : index < t.maxSize)
    (hlen : index * 2 + 1 < t.tags.length) :
    (LazySegTree.push S t index n).tags.getD (index * 2 + 1) none
      = combine_tag_option S (t.tags.getD (index * 2 + 1) none) tag := by
  rw [push_some S t n htg, if_pos hlt]
  show ((_ : List (Option U)).set _ _).getD (index * 2 + 1) none = _
  rw [getD_set_self _ _ _ _ (by simpa using hlen)]
  rw [getD_set_ne _ _ _ (by omega), getD_set_ne _ _ _ (by omega)]

theorem D_retag {T U : Type} {S : LazySpec T U} (L : LazyLaws S)
    (t t2 : LazySegTree T U) (index lo hi : Nat) (hidx : 1 ≤ index) (u : U)
    (htag : t2.tags.getD index none = combine_tag_option S (t.tags.getD index none) u)
    (hd : ∀ k, subtreeIdx index k → t2.data.getD k S.ID = t.data.getD k S.ID)
    (ht : ∀ k, subtreeIdx index k → k ≠ index → t2.tags.getD k none = t.tags.getD k none) :
    D S t2 index lo hi = applyList S u (D S t index lo hi) := by
  have hne_l : ∀ k, subtreeIdx (index * 2) k → k ≠ index := by
    intro k hk hkk
    subst hkk
    exact not_subtreeIdx_left_self hidx hk
  have hne_r : ∀ k, subtreeIdx (index * 2 + 1) k → k ≠ index := by
    intro k hk hkk
    subst hkk
    exact not_subtreeIdx_right_self hk
  by_cases hle : hi ≤ lo + 1
  · rw [D.eq_def (t := t2), D.eq_def (t := t), dif_pos hle, dif_pos hle, htag,
      hd index (subtreeIdx_self index)]
    cases htg0 : t.tags.getD index none with
    | none => simp [combine_tag_option, applyOpt, applyList]
    | some e =>
      simp only [combine_tag_option, applyOpt, applyList, List.map_cons, List.map_nil]
      rw [L.compose_apply e u _ 1]
  · rw [D.eq_def (t := t2), D.eq_def (t := t), dif_neg hle, dif_neg hle, htag,
      D_congr S t t2 (index * 2) lo ((lo + hi) / 2)
        (fun k hk => hd k (subtreeIdx_left hk))
        (fun k hk => ht k (subtreeIdx_left hk) (hne_l k hk)),
      D_congr S t t2 (index * 2 + 1) ((lo + hi) / 2) hi
        (fun k hk => hd k (subtreeIdx_right hk))
        (fun k hk => ht k (subtreeIdx_right hk) (hne_r k hk))]
    exact applyOptList_combine L _ u _

theorem push_D {T U : Type} {S : LazySpec T U} (L : LazyLaws S)
    {t : LazySegTree T U} {hh d index lo hi : Nat}
    (hst : StateOK t hh) (hnode : NodeOK hh d index lo hi) :
    D S (LazySegTree.push S t index (hi - lo)) index lo hi = D S t index lo hi := by
  cases htg : t.tags.getD index none with
  | none => rw [push_none S t _ htg]
  | some u =>
    have hidx := hnode.index_pos
    have hmax : t.maxSize = 2 ^ hh := hst.pow
    have hilt : index < 2 * 2 ^ hh := hnode.index_lt
    have hlen_d : index < t.data.length := by rw [hst.dlen]; omega
    have hlen_t2 : index * 2 + 1 < t.tags.length ∨ True := Or.inr trivial
    have hlolt : lo < hi := hnode.lo_lt_hi
    by_cases hle : hi ≤ lo + 1
    · have hge : ¬ index < t.maxSize := by
        have := hnode.leaf_big hle
        omega
      have h1 : hi - lo = 1 := by omega
      rw [D.eq_def (t := LazySegTree.push S t index (hi - lo)), D.eq_def (t := t),
        dif_pos hle, dif_pos hle, htg,
        push_tag_self S t _ hidx, push_data_getD_self S t _ htg hlen_d, h1]
      rfl
    · have hlt : index < t.maxSize := by
        have := hnode.internal_small hle
        omega
      have hlen_l : index * 2 < t.tags.length := by rw [hst.tlen]; omega
      have hlen_r : index * 2 + 1 < t.tags.length := by rw [hst.tlen]; omega
      have hDl : D S (LazySegTree.push S t index (hi - lo)) (index * 2) lo ((lo + hi) / 2)
          = applyList S u (D S t (index * 2) lo ((lo + hi) / 2)) := by
        refine D_retag L t _ (index * 2) lo ((lo + hi) / 2) (by omega) u
          (push_tags_getD_left S t _ htg hidx hlt hlen_l) ?_ ?_
        · intro k hk
          exact push_data_getD_ne S t index _ (fun hc => by
            subst hc
            exact not_subtreeIdx_left_self hidx hk)
        · intro k hk hkne
          refine push_tags_getD_ne S t index _ ?_ hkne ?_
          · intro hc
            subst hc
            exact not_subtreeIdx_left_self hidx hk
          · intro hc
            subst hc
            exact subtreeIdx_disjoint hidx hk (subtreeIdx_self _)
      have hDr : D S (LazySegTree.push S t index (hi - lo)) (index * 2 + 1)
            ((lo + hi) / 2) hi
          = applyList S u (D S t (index * 2 + 1) ((lo + hi) / 2) hi) := by
        refine D_retag L t _ (index * 2 + 1) ((lo + hi) / 2) hi (by omega) u
          (push_tags_getD_right S t _ htg hidx hlt hlen_r) ?_ ?_
        · intro k hk
          exact push_data_getD_ne S t index _ (fun hc => by
            subst hc
            exact not_subtreeIdx_right_self hk)
        · intro k hk hkne
          refine push_tags_getD_ne S t index _ ?_ ?_ hkne
          · intro hc
            subst hc
            exact not_subtreeIdx_right_self hk
          · intro hc
            subst hc
            exact subtreeIdx_disjoint hidx (subtreeIdx_self _) hk
      rw [D.eq_def (t := LazySegTree.push S t index (hi - lo)), D.eq_def (t := t),
        dif_neg hle, dif_neg hle, htg,
        push_tag_self S t _ hidx, hDl, hDr, applyOptList_none, applyOptList_some,
        ← applyList_append]

theorem push_child_D_left {T U : Type} {S : LazySpec T U} (L : LazyLaws S)
    (t : LazySegTree T U) {index : Nat} (n : Nat) {u : U}
    (htg : t.tags.getD index none = some u) (hidx : 1 ≤ index)
    (hlt : index < t.maxSize) (hlen_l : index * 2 < t.tags.length)
    (lo2 hi2 : Nat) :
    D S (LazySegTree.push S t index n) (index * 2) lo2 hi2
      = applyList S u (D S t (index * 2) lo2 hi2) := by
  refine D_retag L t _ (index * 2) lo2 hi2 (by omega) u
    (push_tags_getD_left S t _ htg hidx hlt hlen_l) ?_ ?_
  · intro k hk
    exact push_data_getD_ne S t index _ (fun hc => by
      subst hc
      exact not_subtreeIdx_left_self hidx hk)
  · intro k hk hkne
    refine push_tags_getD_ne S t index _ ?_ hkne ?_
    · intro hc
      subst hc
      exact not_subtreeIdx_left_self hidx hk
    · intro hc
      subst hc
      exact subtreeIdx_disjoint hidx hk (subtreeIdx_self _)

theorem push_child_D_right {T U : Type} {S : LazySpec T U} (L : LazyLaws S)
    (t : LazySegTree T U) {index : Nat} (n : Nat) {u : U}
    (htg : t.tags.getD index none = some u) (hidx : 1 ≤ index)
    (hlt : index < t.maxSize) (hlen_r : index * 2 + 1 < t.tags.length)
    (lo2 hi2 : Nat) :
    D S (LazySegTree.push S t index n) (index * 2 + 1) lo2 hi2
      = applyList S u (D S t (index * 2 + 1) lo2 hi2) := by
  refine D_retag L t _ (index * 2 + 1) lo2 hi2 (by omega) u
    (push_tags_getD_right S t _ htg hidx hlt hlen_r) ?_ ?_
  · intro k hk
    exact push_data_getD_ne S t index _ (fun hc => by
      subst hc
      exact not_subtreeIdx_right_self hk)
  · intro k hk hkne
    refine push_tags_getD_ne S t index _ ?_ ?_ hkne
    · intro hc
      subst hc
      exact not_subtreeIdx_right_self hk
    · intro hc
      subst hc
      exact subtreeIdx_disjoint hidx (subtreeIdx_self _) hk

theorem push_LazyInv {T U : Type} {S : LazySpec T U} (L : LazyLaws S)
    {t : LazySegTree T U} {hh d index lo hi : Nat}
    (hst : StateOK t hh) (hnode : NodeOK hh d index lo hi)
    (hinv : LazyInv S t index lo hi) :
    LazyInv S (LazySegTree.push S t index (hi - lo)) index lo hi := by
  cases htg : t.tags.getD index none with
  | none => rw [push_none S t _ htg]; exact hinv
  | some u =>
    by_cases hle : hi ≤ lo + 1
    · rw [LazyInv.eq_def, dif_pos hle]
      trivial
    · have hidx := hnode.index_pos
      have hmax : t.maxSize = 2 ^ hh := hst.pow
      have hilt : index < 2 * 2 ^ hh := hnode.index_lt
      have hlen_d : index < t.data.length := by rw [hst.dlen]; omega
      have hlt : index < t.maxSize := by
        have := hnode.internal_small hle
        omega
      have hlen_l : index * 2 < t.tags.length := by rw [hst.tlen]; omega
      have hlen_r : index * 2 + 1 < t.tags.length := by rw [hst.tlen]; omega
      have hmidlt : lo < (lo + hi) / 2 ∧ (lo + hi) / 2 < hi := by omega
      rw [LazyInv.eq_def, dif_neg hle] at hinv
      obtain ⟨heq, hl, hr⟩ := hinv
      rw [LazyInv.eq_def, dif_neg hle]
      refine ⟨?_, ?_, ?_⟩
      · rw [push_data_getD_self S t _ htg hlen_d,
          push_child_D_left L t _ htg hidx hlt hlen_l,
          push_child_D_right L t _ htg hidx hlt hlen_r,
          ← applyList_append, heq]
        have hnil : D S t (index * 2) lo ((lo + hi) / 2)
            ++ D S t (index * 2 + 1) ((lo + hi) / 2) hi ≠ [] := by
          intro hc
          rw [List.append_eq_nil] at hc
          exact D_ne_nil S t hmidlt.1 hc.1
        rw [foldD_applyList L u _ hnil]
        congr 1
        rw [List.length_append, D_length S t _ _ _ hmidlt.1, D_length S t _ _ _ hmidlt.2]
        omega
      · rw [LazyInv_congr S t _ (index * 2) lo ((lo + hi) / 2) (by omega)
          (fun k hk => push_data_getD_ne S t index _ (fun hc => by
            subst hc
            exact not_subtreeIdx_left_self hidx hk))
          (fun k hk hkne => push_tags_getD_ne S t index _ (fun hc => by
              subst hc
              exact not_subtreeIdx_left_self hidx hk) hkne (fun hc => by
              subst hc
              exact subtreeIdx_disjoint hidx hk (subtreeIdx_self _)))]
        exact hl
      · rw [LazyInv_congr S t _ (index * 2 + 1) ((lo + hi) / 2) hi (by omega)
          (fun k hk => push_data_getD_ne S t index _ (fun hc => by
            subst hc
            exact not_subtreeIdx_right_self hk))
          (fun k hk hkne => push_tags_getD_ne S t index _ (fun hc => by
              subst hc
              exact not_subtreeIdx_right_self hk) (fun hc => by
              subst hc
              exact subtreeIdx_disjoint hidx (subtreeIdx_self _) hk) hkne)]
        exact hr

-- ## Range-clip gluing

theorem clip_glue {T : Type} (Dl Dr : List T) (lo mid hi l r : Nat)
    (hlenl : Dl.length = mid - lo) (h1 : lo ≤ mid) (h2 : mid ≤ hi) :
    ((Dl ++ Dr).drop (max lo l - lo)).take (min hi r - max lo l)
      = (Dl.drop (max lo l - lo)).take (min mid r - max lo l)
        ++ (Dr.drop (max mid l - mid)).take (min hi r - max mid l) := by
  rw [List.drop_append_eq_append_drop, List.take_append_eq_append_take]
  congr 1
  · exact List.take_eq_take.mpr (by rw [List.length_drop, hlenl]; omega)
  · have ed : max lo l - lo - Dl.length = max mid l - mid := by rw [hlenl]; omega
    have et : min hi r - max lo l - (Dl.drop (max lo l - lo)).length
        = min hi r - max mid l := by
      rw [List.length_drop, hlenl]
      omega
    rw [ed, et]

theorem ShapeOK.refl {T U : Type} (t : LazySegTree T U) : ShapeOK t t :=
  ⟨rfl, rfl, rfl, rfl⟩

theorem ShapeOK_trans {T U : Type} {t1 t2 t3 : LazySegTree T U}
    (a : ShapeOK t1 t2) (b : ShapeOK t2 t3) : ShapeOK t1 t3 := by
  obtain ⟨a1, a2, a3, a4⟩ := a
  obtain ⟨b1, b2, b3, b4⟩ := b
  exact ⟨b1.trans a1, b2.trans a2, b3.trans a3, b4.trans a4⟩

theorem push_ShapeOK {T U : Type} (S : LazySpec T U) (t : LazySegTree T U)
    (index n : Nat) : ShapeOK t (LazySegTree.push S t index n) :=
  ⟨push_size S t index n, push_maxSize S t index n,
    push_data_length S t index n, push_tags_length S t index n⟩

theorem StateOK.of_shape {T U : Type} {t t2 : LazySegTree T U} {hh : Nat}
    (hst : StateOK t hh) (hs : ShapeOK t t2) : StateOK t2 hh := by
  obtain ⟨s1, s2, s3, s4⟩ := hs
  exact ⟨s2.trans hst.pow, by rw [s3, s2]; exact hst.dlen, by rw [s4, s2]; exact hst.tlen⟩

theorem FrameOut_trans {T U : Type} {S : LazySpec T U} {t1 t2 t3 : LazySegTree T U}
    {i j : Nat} (hsub : subtreeIdx i j)
    (a : FrameOut S t1 t2 i) (b : FrameOut S t2 t3 j) : FrameOut S t1 t3 i := by
  intro k hk
  have hkj : ¬ subtreeIdx j k := fun hc => hk (subtreeIdx_trans hsub hc)
  obtain ⟨a1, a2⟩ := a k hk
  obtain ⟨b1, b2⟩ := b k hkj
  exact ⟨b1.trans a1, b2.trans a2⟩

theorem foldD_D_of_inv {T U : Type} {S : LazySpec T U} (L : LazyLaws S)
    {t : LazySegTree T U} {index lo hi : Nat}
    (hinv : LazyInv S t index lo hi) (htg : t.tags.getD index none = none) :
    foldD S (D S t index lo hi) = t.data.getD index S.ID := by
  by_cases hle : hi ≤ lo + 1
  · rw [D.eq_def, dif_pos hle, htg]
    exact foldD_singleton L _
  · rw [D.eq_def, dif_neg hle, htg, applyOptList_none]
    rw [LazyInv.eq_def, dif_neg hle] at hinv
    exact hinv.1.symm

-- ## Correctness of the recursive lazy query

theorem query_internal_spec {T U : Type} {S : LazySpec T U} (L : LazyLaws S) (hh : Nat)
    (t : LazySegTree T U) (index node_left left right node_right : Nat) :
    StateOK t hh → (∃ d, NodeOK hh d index node_left node_right) →
    LazyInv S t index node_left node_right →
    ShapeOK t (LazySegTree.query_internal S t index node_left left right node_right).2
    ∧ FrameOut S t (LazySegTree.query_internal S t index node_left left right node_right).2 index
    ∧ D S (LazySegTree.query_internal S t index node_left left right node_right).2
          index node_left node_right
        = D S t index node_left node_right
    ∧ LazyInv S (LazySegTree.query_internal S t index node_left left right node_right).2
        index node_left node_right
    ∧ (LazySegTree.query_internal S t index node_left left right node_right).1
        = foldD S (((D S t index node_left node_right).drop
            (max node_left left - node_left)).take
            (min node_right right - max node_left left)) := by
  induction t, index, node_left, left, right, node_right
    using LazySegTree.query_internal.induct (S := S) with
  | case1 t index node_left left right node_right hno =>
    intro hst hnode hinv
    rw [LazySegTree.query_internal.eq_def, dif_pos hno]
    refine ⟨ShapeOK.refl t, fun k _ => ⟨rfl, rfl⟩, rfl, hinv, ?_⟩
    have hz : min node_right right - max node_left left = 0 := by omega
    rw [hz, List.take_zero, foldD_nil]
  | case2 t index node_left left right node_right hno hcov =>
    intro hst hnode hinv
    obtain ⟨d, hnode⟩ := hnode
    have hidx := hnode.index_pos
    rw [LazySegTree.query_internal.eq_def, dif_neg hno]
    dsimp only
    rw [dif_pos hcov]
    refine ⟨push_ShapeOK S t _ _, fun k hk => push_frame S t _ hidx hk,
      push_D L hst hnode, push_LazyInv L hst hnode hinv, ?_⟩
    have htag2 := push_tag_self S t (node_right - node_left) hidx
    have hinv2 := push_LazyInv L hst hnode hinv
    have heq := foldD_D_of_inv L hinv2 htag2
    rw [← heq, push_D L hst hnode]
    congr 1
    have ha : max node_left left = node_left := by omega
    have hb : min node_right right = node_right := by omega
    rw [ha, hb, Nat.sub_self, List.drop_zero,
      ← D_length S t index node_left node_right hnode.lo_lt_hi, List.take_length]
  | case3 t index node_left left right node_right hno t_1 hcov mid lr ihA ihB ihC =>
    intro hst hnodeE hinv
    obtain ⟨d, hnode⟩ := hnodeE
    have hidx := hnode.index_pos
    have hle : ¬ (node_right ≤ node_left + 1) := by omega
    have hnodeL := hnode.left hle
    have hnodeR := hnode.right hle
    have hmid1 : node_left < (node_left + node_right) / 2 := by omega
    have hmid2 : (node_left + node_right) / 2 < node_right := by omega
    rw [LazySegTree.query_internal.eq_def, dif_neg hno]
    dsimp only
    rw [dif_neg hcov]
    dsimp only
    have hmid_eq : mid = (node_left + node_right) / 2 := rfl
    have hlr_eq : lr = LazySegTree.query_internal S
        (LazySegTree.push S t index (node_right - node_left)) (index * 2)
        node_left left right ((node_left + node_right) / 2) := by
      rw [show lr = LazySegTree.query_internal S t_1 (index * 2) node_left left right mid
        from rfl, hmid_eq,
        show t_1 = LazySegTree.push S t index (node_right - node_left) from rfl]
    rw [hmid_eq, hlr_eq] at ihC
    clear ihA
    set t2 := LazySegTree.push S t index (node_right - node_left) with ht2
    set lr2 := LazySegTree.query_internal S t2 (index * 2) node_left left right
      ((node_left + node_right) / 2) with hlr2
    set rr := LazySegTree.query_internal S lr2.2 (index * 2 + 1)
      ((node_left + node_right) / 2) left right node_right with hrr
    have ih1 := ihB
    have ih2 := ihC
    have hst2 : StateOK t2 hh := hst.of_shape (push_ShapeOK S t _ _)
    have hD_t2 : D S t2 index node_left node_right = D S t index node_left node_right :=
      push_D L hst hnode
    have htag_t2 : t2.tags.getD index none = none := push_tag_self S t _ hidx
    have hinv_t2 : LazyInv S t2 index node_left node_right := push_LazyInv L hst hnode hinv
    have hinv_t2c := hinv_t2
    rw [LazyInv.eq_def, dif_neg hle] at hinv_t2c
    obtain ⟨heq_t2, hinvL_t2, hinvR_t2⟩ := hinv_t2c
    -- left child call
    obtain ⟨c1, c2, c3, c4, c5⟩ := ih1 hst2 ⟨d + 1, hnodeL⟩ hinvL_t2
    -- the right subtree was untouched by the left call
    have hframeR : ∀ k, subtreeIdx (index * 2 + 1) k →
        lr2.2.data.getD k S.ID = t2.data.getD k S.ID
          ∧ lr2.2.tags.getD k none = t2.tags.getD k none := by
      intro k hk
      exact c2 k (fun hc => subtreeIdx_disjoint hidx hc hk)
    have hinvR_lr : LazyInv S lr2.2 (index * 2 + 1) ((node_left + node_right) / 2)
        node_right := by
      rw [LazyInv_congr S t2 lr2.2 (index * 2 + 1) _ _ (by omega)
        (fun k hk => (hframeR k hk).1) (fun k hk _ => (hframeR k hk).2)]
      exact hinvR_t2
    have hst3 : StateOK lr2.2 hh := hst2.of_shape c1
    -- right child call
    obtain ⟨d1, d2, d3, d4, d5⟩ := ih2 hst3 ⟨d + 1, hnodeR⟩ hinvR_lr
    -- the left subtree was untouched by the right call
    have hframeL : ∀ k, subtreeIdx (index * 2) k →
        rr.2.data.getD k S.ID = lr2.2.data.getD k S.ID
          ∧ rr.2.tags.getD k none = lr2.2.tags.getD k none := by
      intro k hk
      exact d2 k (fun hc => subtreeIdx_disjoint hidx hk hc)
    -- node `index` itself was untouched by both child calls
    have hself_l : ∀ k, k = index →
        lr2.2.data.getD k S.ID = t2.data.getD k S.ID
          ∧ lr2.2.tags.getD k none = t2.tags.getD k none := by
      intro k hk
      subst hk
      exact c2 k (not_subtreeIdx_left_self hidx)
    have hself_r : ∀ k, k = index →
        rr.2.data.getD k S.ID = lr2.2.data.getD k S.ID
          ∧ rr.2.tags.getD k none = lr2.2.tags.getD k none := by
      intro k hk
      subst hk
      exact d2 k not_subtreeIdx_right_self
    -- denotations of the two children after both calls
    have hDl : D S rr.2 (index * 2) node_left ((node_left + node_right) / 2)
        = D S t2 (index * 2) node_left ((node_left + node_right) / 2) := by
      rw [D_congr S lr2.2 rr.2 (index * 2) _ _
        (fun k hk => (hframeL k hk).1) (fun k hk => (hframeL k hk).2)]
      exact c3
    have hDr : D S rr.2 (index * 2 + 1) ((node_left + node_right) / 2) node_right
        = D S t2 (index * 2 + 1) ((node_left + node_right) / 2) node_right := by
      rw [d3]
      exact D_congr S t2 lr2.2 (index * 2 + 1) _ _
        (fun k hk => (hframeR k hk).1) (fun k hk => (hframeR k hk).2)
    have htag_rr : rr.2.tags.getD index none = none := by
      rw [(hself_r index rfl).2, (hself_l index rfl).2]
      exact htag_t2
    have e2 : D S t2 index node_left node_right
        = D S t2 (index * 2) node_left ((node_left + node_right) / 2)
          ++ D S t2 (index * 2 + 1) ((node_left + node_right) / 2) node_right := by
      rw [D.eq_def (t := t2), dif_neg hle, htag_t2, applyOptList_none]
    have hD_out : D S rr.2 index node_left node_right
        = D S t index node_left node_right := by
      rw [D.eq_def (t := rr.2), dif_neg hle, htag_rr, applyOptList_none, hDl, hDr,
        ← e2, hD_t2]
    have hinv_out : LazyInv S rr.2 index node_left node_right := by
      rw [LazyInv.eq_def, dif_neg hle]
      refine ⟨?_, ?_, ?_⟩
      · rw [(hself_r index rfl).1, (hself_l index rfl).1, hDl, hDr]
        exact heq_t2
      · rw [LazyInv_congr S lr2.2 rr.2 (index * 2) _ _ (by omega)
          (fun k hk => (hframeL k hk).1) (fun k hk _ => (hframeL k hk).2)]
        exact c4
      · exact d4
    have hD_lr_r : D S lr2.2 (index * 2 + 1) ((node_left + node_right) / 2) node_right
        = D S t2 (index * 2 + 1) ((node_left + node_right) / 2) node_right :=
      D_congr S t2 lr2.2 (index * 2 + 1) _ _
        (fun k hk => (hframeR k hk).1) (fun k hk => (hframeR k hk).2)
    rw [hD_lr_r] at d5
    have hres : S.op_on_data lr2.1 rr.1
        = foldD S (((D S t index node_left node_right).drop
            (max node_left left - node_left)).take
            (min node_right right - max node_left left)) := by
      have hlenl : (D S t2 (index * 2) node_left ((node_left + node_right) / 2)).length
          = (node_left + node_right) / 2 - node_left := D_length S t2 _ _ _ hmid1
      have hglue := clip_glue
        (D S t2 (index * 2) node_left ((node_left + node_right) / 2))
        (D S t2 (index * 2 + 1) ((node_left + node_right) / 2) node_right)
        node_left ((node_left + node_right) / 2) node_right left right
        hlenl (by omega) (by omega)
      rw [← hD_t2, e2, hglue, foldD_append L, c5, d5]
    exact ⟨ShapeOK_trans (push_ShapeOK S t index _) (ShapeOK_trans c1 d1),
      FrameOut_trans (subtreeIdx_right (subtreeIdx_self _))
        (FrameOut_trans (subtreeIdx_left (subtreeIdx_self _))
          (fun k hk => push_frame S t _ hidx hk) c2) d2,
      hD_out, hinv_out, hres⟩

-- ## Pull lemmas

theorem pull_ShapeOK {T U : Type} (S : LazySpec T U) (t : LazySegTree T U)
    (index : Nat) : ShapeOK t (LazySegTree.pull_mut S t index) :=
  ⟨rfl, rfl, by simp [LazySegTree.pull_mut], rfl⟩

theorem pull_tags {T U : Type} (S : LazySpec T U) (t : LazySegTree T U)
    (index : Nat) : (LazySegTree.pull_mut S t index).tags = t.tags := rfl

theorem pull_data_getD_ne {T U : Type} (S : LazySpec T U) (t : LazySegTree T U)
    (index : Nat) {k : Nat} (hk : k ≠ index) :
    (LazySegTree.pull_mut S t index).data.getD k S.ID = t.data.getD k S.ID :=
  getD_set_ne _ _ _ (by omega)

theorem pull_data_getD_self {T U : Type} (S : LazySpec T U) (t : LazySegTree T U)
    (index : Nat) (hlen : index < t.data.length) :
    (LazySegTree.pull_mut S t index).data.getD index S.ID
      = S.op_on_data (t.data.getD (index * 2) S.ID) (t.data.getD (index * 2 + 1) S.ID) :=
  getD_set_self _ _ _ _ hlen

-- ## Correctness of the recursive lazy update

theorem update_internal_spec {T U : Type} {S : LazySpec T U} (L : LazyLaws S) (hh : Nat)
    (t : LazySegTree T U) (index node_left left right node_right : Nat) (value : U) :
    StateOK t hh → (∃ d, NodeOK hh d index node_left node_right) →
    LazyInv S t index node_left node_right →
    ShapeOK t (LazySegTree.update_internal S t index node_left left right node_right value)
    ∧ FrameOut S t
        (LazySegTree.update_internal S t index node_left left right node_right value) index
    ∧ D S (LazySegTree.update_internal S t index node_left left right node_right value)
          index node_left node_right
        = applyBetween S value left right node_left (D S t index node_left node_right)
    ∧ LazyInv S
        (LazySegTree.update_internal S t index node_left left right node_right value)
        index node_left node_right
    ∧ (LazySegTree.update_internal S t index node_left left right node_right value).tags.getD
        index none = none := by
  induction t, index, node_left, left, right, node_right, value
    using LazySegTree.update_internal.induct (S := S) with
  | case1 t index node_left left right node_right value hno =>
    intro hst hnodeE hinv
    obtain ⟨d, hnode⟩ := hnodeE
    have hidx := hnode.index_pos
    have hlolt := hnode.lo_lt_hi
    rw [LazySegTree.update_internal.eq_def, dif_pos hno]
    refine ⟨push_ShapeOK S t _ _, fun k hk => push_frame S t _ hidx hk, ?_,
      push_LazyInv L hst hnode hinv, push_tag_self S t _ hidx⟩
    rw [applyBetween_disjoint S value left right node_left _ ?hdisj, push_D L hst hnode]
    case hdisj =>
      rw [D_length S t index node_left node_right hnode.lo_lt_hi]
      omega
  | case2 t index node_left left right node_right value hno hcov =>
    intro hst hnodeE hinv
    obtain ⟨d, hnode⟩ := hnodeE
    have hidx := hnode.index_pos
    have hlolt := hnode.lo_lt_hi
    have hilt : index < 2 * 2 ^ hh := hnode.index_lt
    have hlen_t : index < t.tags.length := by
      rw [hst.tlen, hst.pow]
      omega
    rw [LazySegTree.update_internal.eq_def, dif_neg hno]
    dsimp only
    rw [dif_pos hcov]
    set tmid : LazySegTree T U := { t with tags := (t.tags.set index
      (combine_tag_option S (t.tags.getD index none) value)) } with htmid
    have hmid_shape : ShapeOK t tmid := ⟨rfl, rfl, rfl, by simp [htmid]⟩
    have hmid_st : StateOK tmid hh := hst.of_shape hmid_shape
    have hmid_tag : tmid.tags.getD index none
        = combine_tag_option S (t.tags.getD index none) value :=
      getD_set_self _ _ _ _ hlen_t
    have hmid_tag_ne : ∀ k, k ≠ index → tmid.tags.getD k none = t.tags.getD k none :=
      fun k hk => getD_set_ne _ _ _ (by omega)
    have hmid_D : D S tmid index node_left node_right
        = applyList S value (D S t index node_left node_right) :=
      D_retag L t tmid index node_left node_right hidx value hmid_tag
        (fun k _ => rfl) (fun k _ hk => hmid_tag_ne k hk)
    have hmid_inv : LazyInv S tmid index node_left node_right := by
      rw [LazyInv_congr S t tmid index node_left node_right hidx
        (fun k _ => rfl) (fun k _ hk => hmid_tag_ne k hk)]
      exact hinv
    refine ⟨ShapeOK_trans hmid_shape (push_ShapeOK S tmid _ _), ?_, ?_,
      push_LazyInv L hmid_st hnode hmid_inv, push_tag_self S tmid _ hidx⟩
    · intro k hk
      have h1 : k ≠ index := fun hc => hk (hc ▸ subtreeIdx_self index)
      obtain ⟨p1, p2⟩ := push_frame S tmid (node_right - node_left) hidx hk
      exact ⟨p1, p2.trans (hmid_tag_ne k h1)⟩
    · rw [push_D L hmid_st hnode, hmid_D,
        applyBetween_covered S value left right node_left _ hcov.1 ?hlen]
      case hlen =>
        rw [D_length S t index node_left node_right hlolt]
        omega
  | case3 t index node_left left right node_right value hno hcov t_1 mid t_2 ihA ihB ihC =>
    intro hst hnodeE hinv
    obtain ⟨d, hnode⟩ := hnodeE
    have hidx := hnode.index_pos
    have hle : ¬ (node_right ≤ node_left + 1) := by omega
    have hnodeL := hnode.left hle
    have hnodeR := hnode.right hle
    have hmid1 : node_left < (node_left + node_right) / 2 := by omega
    have hmid2 : (node_left + node_right) / 2 < node_right := by omega
    have hilt : index < 2 * 2 ^ hh := hnode.index_lt
    rw [LazySegTree.update_internal.eq_def, dif_neg hno]
    dsimp only
    rw [dif_neg hcov]
    have hmid_eq : mid = (node_left + node_right) / 2 := rfl
    have ht2_eq : t_2 = LazySegTree.update_internal S
        (LazySegTree.push S t index (node_right - node_left)) (index * 2)
        node_left left right ((node_left + node_right) / 2) value := by
      rw [show t_2 = LazySegTree.update_internal S t_1 (index * 2) node_left left right
          mid value from rfl, hmid_eq,
        show t_1 = LazySegTree.push S t index (node_right - node_left) from rfl]
    rw [hmid_eq, ht2_eq] at ihC
    clear ihA
    set t2 := LazySegTree.push S t index (node_right - node_left) with hdef_t2
    set tl := LazySegTree.update_internal S t2 (index * 2) node_left left right
      ((node_left + node_right) / 2) value with hdef_tl
    set tr := LazySegTree.update_internal S tl (index * 2 + 1)
      ((node_left + node_right) / 2) left right node_right value with hdef_tr
    have hst2 : StateOK t2 hh := hst.of_shape (push_ShapeOK S t _ _)
    have hD_t2 : D S t2 index node_left node_right
        = D S t index node_left node_right := push_D L hst hnode
    have htag_t2 : t2.tags.getD index none = none := push_tag_self S t _ hidx
    have hinv_t2 : LazyInv S t2 index node_left node_right := push_LazyInv L hst hnode hinv
    have hinv_t2c := hinv_t2
    rw [LazyInv.eq_def, dif_neg hle] at hinv_t2c
    obtain ⟨heq_t2, hinvL_t2, hinvR_t2⟩ := hinv_t2c
    obtain ⟨c1, c2, c3, c4, c5⟩ := ihB hst2 ⟨d + 1, hnodeL⟩ hinvL_t2
    have hframeR : ∀ k, subtreeIdx (index * 2 + 1) k →
        tl.data.getD k S.ID = t2.data.getD k S.ID
          ∧ tl.tags.getD k none = t2.tags.getD k none :=
      fun k hk => c2 k (fun hc => subtreeIdx_disjoint hidx hc hk)
    have hinvR_tl : LazyInv S tl (index * 2 + 1) ((node_left + node_right) / 2)
        node_right := by
      rw [LazyInv_congr S t2 tl (index * 2 + 1) _ _ (by omega)
        (fun k hk => (hframeR k hk).1) (fun k hk _ => (hframeR k hk).2)]
      exact hinvR_t2
    have hst3 : StateOK tl hh := hst2.of_shape c1
    obtain ⟨d1, d2, d3, d4, d5⟩ := ihC hst3 ⟨d + 1, hnodeR⟩ hinvR_tl
    have hframeL : ∀ k, subtreeIdx (index * 2) k →
        tr.data.getD k S.ID = tl.data.getD k S.ID
          ∧ tr.tags.getD k none = tl.tags.getD k none :=
      fun k hk => d2 k (fun hc => subtreeIdx_disjoint hidx hk hc)
    have hself_l := c2 index (not_subtreeIdx_left_self hidx)
    have hself_r := d2 index not_subtreeIdx_right_self
    have htag_tr : tr.tags.getD index none = none := by
      rw [hself_r.2, hself_l.2]
      exact htag_t2
    have hlen_d_tr : index < tr.data.length := by
      rw [d1.2.2.1, c1.2.2.1, push_data_length, hst.dlen, hst.pow]
      omega
    have hinvL_tr : LazyInv S tr (index * 2) node_left ((node_left + node_right) / 2) := by
      rw [LazyInv_congr S tl tr (index * 2) _ _ (by omega)
        (fun k hk => (hframeL k hk).1) (fun k hk _ => (hframeL k hk).2)]
      exact c4
    have htagL_tr : tr.tags.getD (index * 2) none = none := by
      rw [(hframeL (index * 2) (subtreeIdx_self _)).2]
      exact c5
    have hDl_tr : D S tr (index * 2) node_left ((node_left + node_right) / 2)
        = applyBetween S value left right node_left
            (D S t2 (index * 2) node_left ((node_left + node_right) / 2)) := by
      rw [D_congr S tl tr (index * 2) _ _
        (fun k hk => (hframeL k hk).1) (fun k hk => (hframeL k hk).2)]
      exact c3
    have hD_tl_r : D S tl (index * 2 + 1) ((node_left + node_right) / 2) node_right
        = D S t2 (index * 2 + 1) ((node_left + node_right) / 2) node_right :=
      D_congr S t2 tl (index * 2 + 1) _ _
        (fun k hk => (hframeR k hk).1) (fun k hk => (hframeR k hk).2)
    have hDr_tr : D S tr (index * 2 + 1) ((node_left + node_right) / 2) node_right
        = applyBetween S value left right ((node_left + node_right) / 2)
            (D S t2 (index * 2 + 1) ((node_left + node_right) / 2) node_right) := by
      rw [d3, hD_tl_r]
    have hpl : D S (LazySegTree.pull_mut S tr index) (index * 2) node_left
        ((node_left + node_right) / 2) = D S tr (index * 2) node_left
        ((node_left + node_right) / 2) :=
      D_congr S tr _ (index * 2) _ _
        (fun k hk => pull_data_getD_ne S tr index
          (fun hc => not_subtreeIdx_left_self hidx (hc ▸ hk)))
        (fun k _ => by rw [pull_tags])
    have hpr : D S (LazySegTree.pull_mut S tr index) (index * 2 + 1)
        ((node_left + node_right) / 2) node_right = D S tr (index * 2 + 1)
        ((node_left + node_right) / 2) node_right :=
      D_congr S tr _ (index * 2 + 1) _ _
        (fun k hk => pull_data_getD_ne S tr index
          (fun hc => not_subtreeIdx_right_self (hc ▸ hk)))
        (fun k _ => by rw [pull_tags])
    have e2 : D S t2 index node_left node_right
        = D S t2 (index * 2) node_left ((node_left + node_right) / 2)
          ++ D S t2 (index * 2 + 1) ((node_left + node_right) / 2) node_right := by
      rw [D.eq_def (t := t2), dif_neg hle, htag_t2, applyOptList_none]
    have hlenDl : (D S t2 (index * 2) node_left ((node_left + node_right) / 2)).length
        = (node_left + node_right) / 2 - node_left := D_length S t2 _ _ _ hmid1
    have hoff : node_left
          + (D S t2 (index * 2) node_left ((node_left + node_right) / 2)).length
        = (node_left + node_right) / 2 := by
      rw [hlenDl]
      omega
    have happ : applyBetween S value left right node_left
          (D S t2 (index * 2) node_left ((node_left + node_right) / 2)
            ++ D S t2 (index * 2 + 1) ((node_left + node_right) / 2) node_right)
        = applyBetween S value left right node_left
            (D S t2 (index * 2) node_left ((node_left + node_right) / 2))
          ++ applyBetween S value left right ((node_left + node_right) / 2)
              (D S t2 (index * 2 + 1) ((node_left + node_right) / 2) node_right) := by
      rw [applyBetween_append, hoff]
    have hD_final : D S (LazySegTree.pull_mut S tr index) index node_left node_right
        = applyBetween S value left right node_left
            (D S t index node_left node_right) := by
      rw [D.eq_def, dif_neg hle]
      show applyOptList S ((LazySegTree.pull_mut S tr index).tags.getD index none) _ = _
      rw [pull_tags, htag_tr, applyOptList_none, hpl, hpr, hDl_tr, hDr_tr,
        ← happ, ← e2, hD_t2]
    have hfoldL : foldD S (D S tr (index * 2) node_left ((node_left + node_right) / 2))
        = tr.data.getD (index * 2) S.ID := foldD_D_of_inv L hinvL_tr htagL_tr
    have hfoldR : foldD S (D S tr (index * 2 + 1) ((node_left + node_right) / 2)
        node_right) = tr.data.getD (index * 2 + 1) S.ID := foldD_D_of_inv L d4 d5
    have hinv_final : LazyInv S (LazySegTree.pull_mut S tr index) index
        node_left node_right := by
      rw [LazyInv.eq_def, dif_neg hle]
      refine ⟨?_, ?_, ?_⟩
      · rw [pull_data_getD_self S tr index hlen_d_tr, hpl, hpr, foldD_append L,
          hfoldL, hfoldR]
      · rw [LazyInv_congr S tr _ (index * 2) _ _ (by omega)
          (fun k hk => pull_data_getD_ne S tr index
            (fun hc => not_subtreeIdx_left_self hidx (hc ▸ hk)))
          (fun k _ _ => by rw [pull_tags])]
        exact hinvL_tr
      · rw [LazyInv_congr S tr _ (index * 2 + 1) _ _ (by omega)
          (fun k hk => pull_data_getD_ne S tr index
            (fun hc => not_subtreeIdx_right_self (hc ▸ hk)))
          (fun k _ _ => by rw [pull_tags])]
        exact d4
    refine ⟨ShapeOK_trans (push_ShapeOK S t index _)
        (ShapeOK_trans c1 (ShapeOK_trans d1 (pull_ShapeOK S tr index))), ?_,
      hD_final, hinv_final, ?_⟩
    · refine FrameOut_trans (subtreeIdx_self index)
        (FrameOut_trans (subtreeIdx_right (subtreeIdx_self _))
          (FrameOut_trans (subtreeIdx_left (subtreeIdx_self _))
            (fun k hk => push_frame S t _ hidx hk) c2) d2) ?_
      intro k hk
      have hkne : k ≠ index := fun hc => hk (hc ▸ subtreeIdx_self index)
      exact ⟨pull_data_getD_ne S tr index hkne, by rw [pull_tags]⟩
    · rw [pull_tags]
      exact htag_tr

-- ## Constructor lemmas

theorem nextPowerOfTwo_ge (n : Nat) : n ≤ Nat.nextPowerOfTwo n := by
  suffices h : ∀ k power (hp : 0 < power), n - power ≤ k →
      n ≤ Nat.nextPowerOfTwo.go n power hp by
    exact h n 1 (by omega) (by omega)
  intro k
  induction k with
  | zero =>
    intro power hp hle
    unfold Nat.nextPowerOfTwo.go
    split <;> omega
  | succ k ih =>
    intro power hp hle
    unfold Nat.nextPowerOfTwo.go
    split
    · exact ih _ _ (by omega)
    · omega

theorem nextPowerOfTwo_pos (n : Nat) : 0 < Nat.nextPowerOfTwo n :=
  Nat.pos_of_isPowerOfTwo (Nat.isPowerOfTwo_nextPowerOfTwo n)

theorem writeLeaves_length {T : Type} : ∀ (vs : List T) (dd : List T) (k : Nat),
    (writeLeaves dd k vs).length = dd.length
  | [], _, _ => rfl
  | v :: vs, dd, k => by
    rw [writeLeaves, writeLeaves_length vs]
    simp

theorem writeLeaves_getD {T : Type} : ∀ (vs : List T) (dd : List T) (k j : Nat)
    (dflt : T), k + vs.length ≤ dd.length →
    (writeLeaves dd k vs).getD j dflt
      = if k ≤ j ∧ j < k + vs.length then vs.getD (j - k) dflt else dd.getD j dflt
  | [], dd, k, j, dflt, _ => by
    rw [writeLeaves, if_neg (by simp only [List.length_nil]; omega)]
  | v :: vs, dd, k, j, dflt, hlen => by
    rw [writeLeaves, writeLeaves_getD vs _ (k + 1) j dflt (by simp at hlen ⊢; omega)]
    by_cases h1 : k + 1 ≤ j ∧ j < k + 1 + vs.length
    · rw [if_pos h1, if_pos (by simp only [List.length_cons]; omega)]
      have : j - k = (j - (k + 1)) + 1 := by omega
      rw [this]
      rfl
    · rw [if_neg h1]
      by_cases h2 : j = k
      · subst h2
        rw [if_pos (by simp only [List.length_cons]; omega),
          getD_set_self _ _ _ _ (by simp only [List.length_cons] at hlen; omega)]
        simp
      · rw [if_neg (by simp only [List.length_cons]; omega), getD_set_ne _ _ _ (by omega)]

theorem buildLoop_length {T : Type} (id : T) (op : T → T → T) :
    ∀ (j : Nat) (dd : List T), (buildLoop id op dd j).length = dd.length
  | 0, _ => rfl
  | j + 1, dd => by
    rw [buildLoop, buildLoop_length id op j]
    simp

theorem buildLoop_getD_high {T : Type} (id : T) (op : T → T → T) (dflt : T) :
    ∀ (j : Nat) (dd : List T) (k : Nat), (k = 0 ∨ j < k) →
      (buildLoop id op dd j).getD k dflt = dd.getD k dflt
  | 0, _, _, _ => rfl
  | j + 1, dd, k, hk => by
    rw [buildLoop, buildLoop_getD_high id op dflt j _ k (by omega),
      getD_set_ne _ _ _ (by omega)]

theorem buildLoop_getD_eq {T : Type} (id : T) (op : T → T → T) :
    ∀ (j : Nat) (dd : List T) (k : Nat), 2 * j + 1 < dd.length →
      1 ≤ k → k ≤ j →
      (buildLoop id op dd j).getD k id
        = op ((buildLoop id op dd j).getD (k * 2) id)
            ((buildLoop id op dd j).getD (k * 2 + 1) id)
  | 0, dd, k, hlen, hk1, hk2 => by omega
  | j + 1, dd, k, hlen, hk1, hk2 => by
    rw [buildLoop]
    rcases Nat.eq_or_lt_of_le hk2 with heq | hlt
    · subst heq
      rw [buildLoop_getD_high id op id j _ (j + 1) (by omega),
        buildLoop_getD_high id op id j _ ((j + 1) * 2) (by omega),
        buildLoop_getD_high id op id j _ ((j + 1) * 2 + 1) (by omega),
        getD_set_self _ _ _ _ (by omega),
        getD_set_ne _ _ _ (by omega), getD_set_ne _ _ _ (by omega)]
    · rw [buildLoop_getD_eq id op j _ k (by simp only [List.length_set]; omega) hk1
        (by omega)]

theorem getD_replicate_none {U : Type} (n k : Nat) :
    (List.replicate n (none : Option U)).getD k none = none := by
  by_cases h : k < n
  · exact getD_replicate _ _ h
  · rw [List.getD_eq_default]
    simp
    omega

theorem getD_replicate_any {T : Type} (a d : T) (n k : Nat) (h : k < n) :
    (List.replicate n a).getD k d = a := getD_replicate _ _ h

-- ## Denotation of freshly built trees

theorem D_eq_slice {T U : Type} {S : LazySpec T U} (t : LazySegTree T U)
    (hh : Nat) (m : List T)
    (htags : ∀ k, t.tags.getD k none = none)
    (hmlen : m.length = t.maxSize)
    (hleaf : ∀ p, p < t.maxSize → t.data.getD (t.maxSize + p) S.ID = m.getD p S.ID)
    (hmax : t.maxSize = 2 ^ hh) :
    ∀ index lo hi, (∃ d, NodeOK hh d index lo hi) →
      D S t index lo hi = (m.drop lo).take (hi - lo) := by
  intro index lo hi
  induction index, lo, hi using D.induct (S := S) (t := t) with
  | case1 index lo hi hle =>
    rintro ⟨d, hnode⟩
    have hlolt := hnode.lo_lt_hi
    have h1 : hi - lo = 1 := by omega
    have hlom : lo < m.length := by
      have := hnode.hi_le
      rw [hmlen, hmax]
      omega
    have hidx_eq : index = t.maxSize + lo := by
      have hbig := hnode.leaf_big hle
      have hlo := hnode.lo_eq
      have hdh := hnode.dle
      have hhd : hh = d := by
        have := hnode.ilt
        by_contra hc
        have h2 : d + 1 ≤ hh := by omega
        have : 2 ^ (d + 1) ≤ 2 ^ hh := Nat.pow_le_pow_right (by omega) h2
        omega
      subst hhd
      have : 2 ^ (hh - hh) = 1 := by simp
      rw [this] at hlo
      have := hnode.ile
      rw [hmax]
      omega
    rw [D.eq_def, dif_pos hle, htags index, h1]
    show [t.data.getD index S.ID] = _
    rw [hidx_eq, hleaf lo (by have := hnode.hi_le; rw [hmax]; omega)]
    rw [List.drop_eq_getElem_cons hlom]
    simp only [List.take_succ_cons, List.take_zero, List.getD_eq_getElem?_getD,
      List.getElem?_eq_getElem hlom, Option.getD_some]
  | case2 index lo hi hle ih1 ih2 =>
    rintro ⟨d, hnode⟩
    have hlolt := hnode.lo_lt_hi
    rw [D.eq_def, dif_neg hle, htags index, applyOptList_none,
      ih1 ⟨d + 1, hnode.left hle⟩, ih2 ⟨d + 1, hnode.right hle⟩]
    have hsplit : hi - lo = ((lo + hi) / 2 - lo) + (hi - (lo + hi) / 2) := by omega
    rw [hsplit, List.take_add, List.drop_drop]
    congr 3
    omega

theorem foldD_D_of_build {T U : Type} {S : LazySpec T U} (L : LazyLaws S)
    (t : LazySegTree T U) (hh : Nat)
    (htags : ∀ k, t.tags.getD k none = none)
    (hbuild : ∀ k, 1 ≤ k → k < t.maxSize →
      t.data.getD k S.ID
        = S.op_on_data (t.data.getD (k * 2) S.ID) (t.data.getD (k * 2 + 1) S.ID))
    (hmax : t.maxSize = 2 ^ hh) :
    ∀ index lo hi, (∃ d, NodeOK hh d index lo hi) →
      foldD S (D S t index lo hi) = t.data.getD index S.ID := by
  intro index lo hi
  induction index, lo, hi using D.induct (S := S) (t := t) with
  | case1 index lo hi hle =>
    rintro ⟨d, hnode⟩
    rw [D.eq_def, dif_pos hle, htags index]
    exact foldD_singleton L _
  | case2 index lo hi hle ih1 ih2 =>
    rintro ⟨d, hnode⟩
    rw [D.eq_def, dif_neg hle, htags index, applyOptList_none, foldD_append L,
      ih1 ⟨d + 1, hnode.left hle⟩, ih2 ⟨d + 1, hnode.right hle⟩,
      ← hbuild index hnode.index_pos (by rw [hmax]; exact hnode.internal_small hle)]

theorem LazyInv_of_build {T U : Type} {S : LazySpec T U} (L : LazyLaws S)
    (t : LazySegTree T U) (hh : Nat)
    (htags : ∀ k, t.tags.getD k none = none)
    (hbuild : ∀ k, 1 ≤ k → k < t.maxSize →
      t.data.getD k S.ID
        = S.op_on_data (t.data.getD (k * 2) S.ID) (t.data.getD (k * 2 + 1) S.ID))
    (hmax : t.maxSize = 2 ^ hh) :
    ∀ index lo hi, (∃ d, NodeOK hh d index lo hi) → LazyInv S t index lo hi := by
  intro index lo hi
  induction index, lo, hi using LazyInv.induct (S := S) (t := t) with
  | case1 index lo hi hle =>
    intro _
    rw [LazyInv.eq_def, dif_pos hle]
    trivial
  | case2 index lo hi hle ih1 ih2 =>
    rintro ⟨d, hnode⟩
    rw [LazyInv.eq_def, dif_neg hle]
    refine ⟨?_, ih1 ⟨d + 1, hnode.left hle⟩, ih2 ⟨d + 1, hnode.right hle⟩⟩
    rw [foldD_append L,
      foldD_D_of_build L t hh htags hbuild hmax _ _ _ ⟨d + 1, hnode.left hle⟩,
      foldD_D_of_build L t hh htags hbuild hmax _ _ _ ⟨d + 1, hnode.right hle⟩,
      ← hbuild index hnode.index_pos (by rw [hmax]; exact hnode.internal_small hle)]

-- ## Representation of freshly constructed trees

theorem LazyRepr_from_vec {T U : Type} {S : LazySpec T U} (L : LazyLaws S)
    (values : List T) : LazyRepr S (LazySegTree.from_vec S values) values := by
  obtain ⟨hh, hpow⟩ := Nat.isPowerOfTwo_nextPowerOfTwo values.length
  have hsz : values.length ≤ Nat.nextPowerOfTwo values.length := nextPowerOfTwo_ge _
  have hpos : 0 < Nat.nextPowerOfTwo values.length := nextPowerOfTwo_pos _
  have ht_size : (LazySegTree.from_vec S values).size = values.length := rfl
  have ht_max : (LazySegTree.from_vec S values).maxSize
      = Nat.nextPowerOfTwo values.length := rfl
  have ht_tags : (LazySegTree.from_vec S values).tags
      = List.replicate (Nat.nextPowerOfTwo values.length * 2) none := rfl
  have ht_data : (LazySegTree.from_vec S values).data
      = buildLoop S.ID S.op_on_data
          (writeLeaves (List.replicate (Nat.nextPowerOfTwo values.length * 2) S.ID)
            (Nat.nextPowerOfTwo values.length) values)
          (Nat.nextPowerOfTwo values.length - 1) := rfl
  have htags : ∀ k, (LazySegTree.from_vec S values).tags.getD k none = none := by
    intro k
    rw [ht_tags]
    exact getD_replicate_none _ _
  have hdlen : (LazySegTree.from_vec S values).data.length
      = Nat.nextPowerOfTwo values.length * 2 := by
    rw [ht_data, buildLoop_length, writeLeaves_length, List.length_replicate]
  have hwl : Nat.nextPowerOfTwo values.length + values.length
      ≤ (List.replicate (Nat.nextPowerOfTwo values.length * 2) S.ID).length := by
    rw [List.length_replicate]
    omega
  have hleafval : ∀ p, p < Nat.nextPowerOfTwo values.length →
      (LazySegTree.from_vec S values).data.getD (Nat.nextPowerOfTwo values.length + p) S.ID
        = (values ++ List.replicate
            (Nat.nextPowerOfTwo values.length - values.length) S.ID).getD p S.ID := by
    intro p hp
    rw [ht_data, buildLoop_getD_high _ _ _ _ _ _ (Or.inr (by omega)),
      writeLeaves_getD values _ _ _ _ hwl]
    by_cases hps : p < values.length
    · rw [if_pos (by omega)]
      have he : Nat.nextPowerOfTwo values.length + p - Nat.nextPowerOfTwo values.length
          = p := by omega
      rw [he, List.getD_append _ _ _ _ (by omega)]
    · rw [if_neg (by omega), getD_replicate_any _ _ _ _ (by omega),
        List.getD_append_right _ _ _ _ (by omega), getD_replicate_any _ _ _ _ (by omega)]
  have hbuild : ∀ k, 1 ≤ k → k < (LazySegTree.from_vec S values).maxSize →
      (LazySegTree.from_vec S values).data.getD k S.ID
        = S.op_on_data ((LazySegTree.from_vec S values).data.getD (k * 2) S.ID)
            ((LazySegTree.from_vec S values).data.getD (k * 2 + 1) S.ID) := by
    intro k h1 h2
    rw [ht_max] at h2
    rw [ht_data]
    refine buildLoop_getD_eq S.ID S.op_on_data _ _ k ?_ h1 (by omega)
    rw [writeLeaves_length, List.length_replicate]
    omega
  have hmlen : (values ++ List.replicate
      (Nat.nextPowerOfTwo values.length - values.length) S.ID).length
      = (LazySegTree.from_vec S values).maxSize := by
    rw [ht_max, List.length_append, List.length_replicate]
    omega
  have hmax2 : (LazySegTree.from_vec S values).maxSize = 2 ^ hh := by
    rw [ht_max]
    exact hpow
  have hroot : ∃ d, NodeOK hh d 1 0 (LazySegTree.from_vec S values).maxSize := by
    refine ⟨0, ?_⟩
    rw [hmax2]
    exact NodeOK.root hh
  refine ⟨⟨hh, hmax2⟩, by rw [ht_size, ht_max]; exact hsz, ht_size.symm,
    by rw [hdlen, ht_max]; omega, by rw [ht_tags, List.length_replicate, ht_max]; omega,
    ?_, ?_⟩
  · exact LazyInv_of_build L _ hh htags hbuild hmax2 1 0 _ hroot
  · rw [D_eq_slice _ hh _ htags hmlen hleafval hmax2 1 0 _ hroot, List.drop_zero,
      Nat.sub_zero, ← hmlen, List.take_length, ht_size]
    have hpadn : (values ++ List.replicate
          (values.length.nextPowerOfTwo - values.length) S.ID).length - values.length
        = values.length.nextPowerOfTwo - values.length := by
      rw [List.length_append, List.length_replicate]
      omega
    rw [hpadn]

theorem LazyRepr_from_slice {T U : Type} {S : LazySpec T U} (L : LazyLaws S)
    (values : List T) : LazyRepr S (LazySegTree.from_slice S values) values :=
  LazyRepr_from_vec L values

theorem LazyRepr_new {T U : Type} {S : LazySpec T U} (L : LazyLaws S)
    (n : Nat) : LazyRepr S (LazySegTree.new S n) (List.replicate n S.ID) := by
  obtain ⟨hh, hpow⟩ := Nat.isPowerOfTwo_nextPowerOfTwo n
  have hsz : n ≤ Nat.nextPowerOfTwo n := nextPowerOfTwo_ge _
  have hpos : 0 < Nat.nextPowerOfTwo n := nextPowerOfTwo_pos _
  have ht_size : (LazySegTree.new S n).size = n := rfl
  have ht_max : (LazySegTree.new S n).maxSize = Nat.nextPowerOfTwo n := rfl
  have ht_tags : (LazySegTree.new S n).tags
      = List.replicate (Nat.nextPowerOfTwo n * 2) none := rfl
  have ht_data : (LazySegTree.new S n).data
      = List.replicate (Nat.nextPowerOfTwo n * 2) S.ID := rfl
  have htags : ∀ k, (LazySegTree.new S n).tags.getD k none = none := by
    intro k
    rw [ht_tags]
    exact getD_replicate_none _ _
  have hleafval : ∀ p, p < Nat.nextPowerOfTwo n →
      (LazySegTree.new S n).data.getD (Nat.nextPowerOfTwo n + p) S.ID
        = (List.replicate n S.ID
            ++ List.replicate (Nat.nextPowerOfTwo n - n) S.ID).getD p S.ID := by
    intro p hp
    rw [ht_data, getD_replicate_any _ _ _ _ (by omega)]
    by_cases hps : p < n
    · rw [List.getD_append _ _ _ _ (by rw [List.length_replicate]; omega),
        getD_replicate_any _ _ _ _ (by omega)]
    · rw [List.getD_append_right _ _ _ _ (by rw [List.length_replicate]; omega),
        getD_replicate_any _ _ _ _ (by rw [List.length_replicate]; omega)]
  have hbuild : ∀ k, 1 ≤ k → k < (LazySegTree.new S n).maxSize →
      (LazySegTree.new S n).data.getD k S.ID
        = S.op_on_data ((LazySegTree.new S n).data.getD (k * 2) S.ID)
            ((LazySegTree.new S n).data.getD (k * 2 + 1) S.ID) := by
    intro k h1 h2
    rw [ht_max] at h2
    rw [ht_data, getD_replicate_any _ _ _ _ (by omega),
      getD_replicate_any _ _ _ _ (by omega), getD_replicate_any _ _ _ _ (by omega),
      L.id_left]
  have hmlen : (List.replicate n S.ID
      ++ List.replicate (Nat.nextPowerOfTwo n - n) S.ID).length
      = (LazySegTree.new S n).maxSize := by
    rw [ht_max, List.length_append, List.length_replicate, List.length_replicate]
    omega
  have hmax2 : (LazySegTree.new S n).maxSize = 2 ^ hh := by
    rw [ht_max]
    exact hpow
  have hroot : ∃ d, NodeOK hh d 1 0 (LazySegTree.new S n).maxSize := by
    refine ⟨0, ?_⟩
    rw [hmax2]
    exact NodeOK.root hh
  refine ⟨⟨hh, hmax2⟩, by rw [ht_size, ht_max]; exact hsz,
    by rw [ht_size, List.length_replicate],
    by rw [ht_data, List.length_replicate, ht_max]; omega,
    by rw [ht_tags, List.length_replicate, ht_max]; omega, ?_, ?_⟩
  · exact LazyInv_of_build L _ hh htags hbuild hmax2 1 0 _ hroot
  · rw [D_eq_slice _ hh _ htags hmlen hleafval hmax2 1 0 _ hroot, List.drop_zero,
      Nat.sub_zero, ← hmlen, List.take_length, ht_size]
    have hpadn : (List.replicate n S.ID ++ List.replicate
          (n.nextPowerOfTwo - n) S.ID).length - n = n.nextPowerOfTwo - n := by
      rw [List.length_append, List.length_replicate, List.length_replicate]
      omega
    rw [hpadn]

-- ## Public operation specifications

theorem applyBetween_degenerate {T U : Type} (S : LazySpec T U) (v : U) {l r : Nat}
    (hrl : r ≤ l) : ∀ (p : Nat) (xs : List T), applyBetween S v l r p xs = xs
  | _, [] => rfl
  | p, x :: xs => by
    rw [applyBetween, if_neg (by omega), applyBetween_degenerate S v hrl (p + 1) xs]

theorem sliceFold_empty {T U : Type} (S : LazySpec T U) (m : List T) (l : Nat) :
    sliceFold S m l l = S.ID := by
  rw [sliceFold, Nat.sub_self, List.take_zero, foldD_nil]

theorem slice_append_pad {T : Type} (m pad : List T) {l r : Nat}
    (hl : l ≤ m.length) (hr : r ≤ m.length) :
    (((m ++ pad).drop l).take (r - l)) = ((m.drop l).take (r - l)) := by
  rw [List.drop_append_eq_append_drop, List.take_append_eq_append_take]
  have h1 : l - m.length = 0 := by omega
  have h2 : r - l - (List.drop l m).length = 0 := by
    rw [List.length_drop]
    omega
  rw [h1, h2, List.take_zero, List.append_nil]

theorem LazySegTree_query_spec {T U : Type} {S : LazySpec T U} (L : LazyLaws S)
    {t : LazySegTree T U} {m : List T} (hrep : LazyRepr S t m) {l r : Nat}
    (hlr : l ≤ r) (hrs : r ≤ t.size) :
    ∃ t2, LazySegTree.query S t l r = .ok (sliceFold S m l r, t2)
      ∧ LazyRepr S t2 m ∧ t2.size = t.size ∧ t2.maxSize = t.maxSize := by
  rw [LazySegTree.query, if_pos (show validate_range l r t.size from ⟨hlr, hrs⟩)]
  by_cases hle : l = r
  · subst hle
    rw [if_pos rfl, sliceFold_empty]
    exact ⟨t, rfl, hrep, rfl, rfl⟩
  · rw [if_neg hle]
    obtain ⟨hh, hpow⟩ := hrep.pow
    have hst : StateOK t hh := ⟨hpow, hrep.dlen, hrep.tlen⟩
    have hroot : ∃ d, NodeOK hh d 1 0 t.maxSize := ⟨0, by rw [hpow]; exact NodeOK.root hh⟩
    obtain ⟨q1, q2, q3, q4, q5⟩ :=
      query_internal_spec L hh t 1 0 l r t.maxSize hst hroot hrep.inv
    have hres : (LazySegTree.query_internal S t 1 0 l r t.maxSize).1
        = sliceFold S m l r := by
      rw [q5]
      have ha : max 0 l = l := by omega
      have hb : min t.maxSize r = r := by
        have := hrep.size_le
        omega
      rw [ha, hb, Nat.sub_zero, hrep.den,
        slice_append_pad m _ (by rw [hrep.mlen]; omega) (by rw [hrep.mlen]; omega)]
      rfl
    refine ⟨(LazySegTree.query_internal S t 1 0 l r t.maxSize).2, ?_, ?_, q1.1, q1.2.1⟩
    · rw [show LazySegTree.query_internal S t 1 0 l r t.maxSize
        = ((LazySegTree.query_internal S t 1 0 l r t.maxSize).1,
           (LazySegTree.query_internal S t 1 0 l r t.maxSize).2) from rfl, hres]
    · refine ⟨⟨hh, by rw [q1.2.1]; exact hpow⟩,
        by rw [q1.1, q1.2.1]; exact hrep.size_le,
        by rw [q1.1]; exact hrep.mlen,
        by rw [q1.2.2.1, q1.2.1]; exact hrep.dlen,
        by rw [q1.2.2.2, q1.2.1]; exact hrep.tlen, ?_, ?_⟩
      · rw [q1.2.1]
        exact q4
      · rw [q1.2.1, q1.1, q3]
        exact hrep.den

theorem LazySegTree_update_spec {T U : Type} {S : LazySpec T U} (L : LazyLaws S)
    {t : LazySegTree T U} {m : List T} (hrep : LazyRepr S t m) {l r : Nat}
    (hlr : l ≤ r) (hrs : r ≤ t.size) (v : U) :
    ∃ t2, LazySegTree.update S t l r v = .ok t2
      ∧ LazyRepr S t2 (applyBetween S v l r 0 m) ∧ t2.size = t.size
      ∧ t2.maxSize = t.maxSize := by
  rw [LazySegTree.update, if_pos (show validate_range l r t.size from ⟨hlr, hrs⟩)]
  by_cases hle : l = r
  · subst hle
    rw [if_pos rfl]
    refine ⟨t, rfl, ?_, rfl, rfl⟩
    rw [applyBetween_degenerate S v (by omega)]
    exact hrep
  · rw [if_neg hle]
    obtain ⟨hh, hpow⟩ := hrep.pow
    have hst : StateOK t hh := ⟨hpow, hrep.dlen, hrep.tlen⟩
    have hroot : ∃ d, NodeOK hh d 1 0 t.maxSize := ⟨0, by rw [hpow]; exact NodeOK.root hh⟩
    obtain ⟨u1, u2, u3, u4, u5⟩ :=
      update_internal_spec L hh t 1 0 l r t.maxSize v hst hroot hrep.inv
    refine ⟨_, rfl, ?_, u1.1, u1.2.1⟩
    have hden : D S (LazySegTree.update_internal S t 1 0 l r t.maxSize v) 1 0 t.maxSize
        = applyBetween S v l r 0 m
          ++ List.replicate (t.maxSize - t.size) S.ID := by
      rw [u3, hrep.den, applyBetween_append, Nat.zero_add, hrep.mlen,
        applyBetween_disjoint S v l r t.size _ (Or.inl (by omega))]
    refine ⟨⟨hh, by rw [u1.2.1]; exact hpow⟩,
      by rw [u1.1, u1.2.1]; exact hrep.size_le,
      by rw [applyBetween_length, u1.1]; exact hrep.mlen,
      by rw [u1.2.2.1, u1.2.1]; exact hrep.dlen,
      by rw [u1.2.2.2, u1.2.1]; exact hrep.tlen, ?_, ?_⟩
    · rw [u1.2.1]
      exact u4
    · rw [u1.2.1, u1.1, hden]

-- ## Replaying call sequences

theorem runOps_spec {T U : Type} {S : LazySpec T U} (L : LazyLaws S) :
    ∀ (ops : List (Op U)) (t : LazySegTree T U) (m : List T),
      LazyRepr S t m → (∀ op ∈ ops, opValid t.size op) →
      ∃ t2, runOps S t ops = .ok (t2, runRef S m ops)
  | [], t, m, _, _ => ⟨t, rfl⟩
  | .update l r v :: rest, t, m, hrep, hval => by
    have hv := hval _ (List.mem_cons_self _ _)
    obtain ⟨t2, hok, hrep2, hsz, _⟩ := LazySegTree_update_spec L hrep hv.1 hv.2 v
    obtain ⟨t3, hrun⟩ := runOps_spec L rest t2 _ hrep2
      (fun op hop => hsz ▸ hval op (List.mem_cons_of_mem _ hop))
    refine ⟨t3, ?_⟩
    rw [runOps, hok]
    show runOps S t2 rest = _
    rw [hrun, runRef]
  | .query l r :: rest, t, m, hrep, hval => by
    have hv := hval _ (List.mem_cons_self _ _)
    obtain ⟨t2, hok, hrep2, hsz, _⟩ := LazySegTree_query_spec L hrep hv.1 hv.2
    obtain ⟨t3, hrun⟩ := runOps_spec L rest t2 _ hrep2
      (fun op hop => hsz ▸ hval op (List.mem_cons_of_mem _ hop))
    refine ⟨t3, ?_⟩
    rw [runOps, hok]
    show (do
      let q ← runOps S t2 rest
      pure (q.1, sliceFold S m l r :: q.2) : Except RQError _) = _
    rw [hrun]
    show Except.ok (t3, sliceFold S m l r :: runRef S m rest) = _
    rw [runRef]
    rfl

-- ## Aggregation-tree invariant

theorem subtreeIdx_one {k : Nat} (h1 : 1 ≤ k) (h : subtreeIdx k 1) : k = 1 := by
  obtain ⟨e, he⟩ := h
  have : 1 / 2 ^ e ≤ 1 := Nat.div_le_self _ _
  omega

theorem subtreeIdx_half {index : Nat} (h : 1 < index) :
    subtreeIdx (index / 2) index := ⟨1, by simp [Nat.pow_one]⟩

theorem subtreeIdx_of_half {index k : Nat} (hne : k ≠ index)
    (h : subtreeIdx k index) : subtreeIdx k (index / 2) := by
  obtain ⟨e, he⟩ := h
  match e with
  | 0 => simp at he; omega
  | e + 1 =>
    refine ⟨e, ?_⟩
    rw [Nat.div_div_eq_div_mul]
    rw [← he]
    congr 1
    rw [Nat.pow_succ]
    ring

theorem recompute_length {T : Type} (S : SegSpec T) :
    ∀ (index : Nat) (dd : List T),
      (SegTree.recompute S dd index).length = dd.length := by
  intro index
  induction index using Nat.strong_induction_on with
  | _ index ih =>
    intro dd
    rw [SegTree.recompute.eq_def]
    split
    · next h1 =>
      rw [ih (index / 2) (by omega)]
      simp
    · rfl

theorem recompute_getD_non_anc {T : Type} (S : SegSpec T) :
    ∀ (index : Nat) (dd : List T) (k : Nat), 1 ≤ index →
      ¬ (subtreeIdx k index ∧ k ≠ index) →
      (SegTree.recompute S dd index).getD k S.ID = dd.getD k S.ID := by
  intro index
  induction index using Nat.strong_induction_on with
  | _ index ih =>
    intro dd k hidx hk
    rw [SegTree.recompute.eq_def]
    split
    · next h1 =>
      have hanc : subtreeIdx (index / 2) index := subtreeIdx_half h1
      have hk2 : k ≠ index / 2 := by
        intro hc
        subst hc
        exact hk ⟨hanc, by omega⟩
      have hrec : ¬ (subtreeIdx k (index / 2) ∧ k ≠ index / 2) := by
        rintro ⟨hs, _⟩
        refine hk ⟨subtreeIdx_trans hs hanc, ?_⟩
        intro hc
        rw [hc] at hs
        obtain ⟨e, he⟩ := hs
        have h2 : index / 2 / 2 ^ e ≤ index / 2 := Nat.div_le_self _ _
        omega
      rw [ih (index / 2) (by omega) _ k (by omega) hrec,
        getD_set_ne _ _ _ (by omega)]
    · rfl

theorem recompute_spec {T : Type} (S : SegSpec T) (B : Nat) :
    ∀ (index : Nat) (dd : List T), 1 ≤ index → index < dd.length →
      (∀ k, 1 ≤ k → k < B → ¬ (subtreeIdx k index ∧ k ≠ index) →
        dd.getD k S.ID = S.op (dd.getD (k * 2) S.ID) (dd.getD (k * 2 + 1) S.ID)) →
      nodeEq S (SegTree.recompute S dd index) B := by
  intro index
  induction index using Nat.strong_induction_on with
  | _ index ih =>
    intro dd hidx hlen hpre
    rw [SegTree.recompute.eq_def]
    split
    · next h1 =>
      refine ih (index / 2) (by omega) _ (by omega)
        (by simp only [List.length_set]; omega) ?_
      intro k hk1 hkB hknot
      by_cases hkc : k = index / 2
      · subst hkc
        rw [getD_set_self _ _ _ _ (by omega),
          getD_set_ne _ _ _ (by omega), getD_set_ne _ _ _ (by omega)]
      · have hns : ¬ subtreeIdx k (index / 2) := fun hs => hknot ⟨hs, hkc⟩
        have hns2 : ¬ (subtreeIdx k index ∧ k ≠ index) := by
          rintro ⟨hs, hne⟩
          exact hns (subtreeIdx_of_half hne hs)
        have hc2 : k * 2 ≠ index / 2 := by
          intro hc
          exact hns ⟨1, by rw [Nat.pow_one]; omega⟩
        have hc3 : k * 2 + 1 ≠ index / 2 := by
          intro hc
          exact hns ⟨1, by rw [Nat.pow_one]; omega⟩
        rw [getD_set_ne _ _ _ (by omega), getD_set_ne _ _ _ (by omega),
          getD_set_ne _ _ _ (by omega)]
        exact hpre k hk1 hkB hns2
    · next h1 =>
      intro k hk1 hkB
      refine hpre k hk1 hkB ?_
      rintro ⟨hs, hne⟩
      have hieq : index = 1 := by omega
      subst hieq
      exact hne (subtreeIdx_one hk1 hs)

theorem SegInv_iff_nodeEq {T : Type} (S : SegSpec T) (t : SegTree T) :
    SegInv S t ↔ nodeEq S t.data t.maxSize := by
  constructor
  · intro h k h1 h2
    have := h k h1 h2
    rw [Nat.mul_comm 2 k] at this
    exact this
  · intro h k h1 h2
    have := h k h1 h2
    rw [Nat.mul_comm k 2] at this
    exact this

theorem SegTree_new_inv {T : Type} {S : SegSpec T} (L : SegLaws S) (n : Nat) :
    SegInv S (SegTree.new S n) ∧ SegOK (SegTree.new S n) := by
  have hpos : 0 < Nat.nextPowerOfTwo n := nextPowerOfTwo_pos _
  have hd : (SegTree.new S n).data = List.replicate (Nat.nextPowerOfTwo n * 2) S.ID := rfl
  have hm : (SegTree.new S n).maxSize = Nat.nextPowerOfTwo n := rfl
  refine ⟨?_, ?_, ?_⟩
  · intro i h1 h2
    rw [hm] at h2
    rw [hd, getD_replicate_any _ _ _ _ (by omega), getD_replicate_any _ _ _ _ (by omega),
      getD_replicate_any _ _ _ _ (by omega)]
    exact (L.id_left S.ID).symm
  · rw [hd, List.length_replicate, hm]
    omega
  · show n ≤ Nat.nextPowerOfTwo n
    exact nextPowerOfTwo_ge n

theorem SegTree_from_vec_inv {T : Type} (S : SegSpec T) (values : List T) :
    SegInv S (SegTree.from_vec S values) ∧ SegOK (SegTree.from_vec S values) := by
  have hpos : 0 < Nat.nextPowerOfTwo values.length := nextPowerOfTwo_pos _
  have hd : (SegTree.from_vec S values).data
      = buildLoop S.ID S.op
          (writeLeaves (List.replicate (2 * Nat.nextPowerOfTwo values.length) S.ID)
            (Nat.nextPowerOfTwo values.length) values)
          (Nat.nextPowerOfTwo values.length - 1) := rfl
  have hm : (SegTree.from_vec S values).maxSize = Nat.nextPowerOfTwo values.length := rfl
  have hlen : (SegTree.from_vec S values).data.length
      = 2 * Nat.nextPowerOfTwo values.length := by
    rw [hd, buildLoop_length, writeLeaves_length, List.length_replicate]
  refine ⟨?_, ?_, ?_⟩
  · intro i h1 h2
    rw [hm] at h2
    rw [hd]
    have := buildLoop_getD_eq S.ID S.op (Nat.nextPowerOfTwo values.length - 1)
      (writeLeaves (List.replicate (2 * Nat.nextPowerOfTwo values.length) S.ID)
        (Nat.nextPowerOfTwo values.length) values) i
      (by rw [writeLeaves_length, List.length_replicate]; omega) h1 (by omega)
    rw [Nat.mul_comm 2 i]
    exact this
  · rw [hlen, hm]
  · show values.length ≤ Nat.nextPowerOfTwo values.length
    exact nextPowerOfTwo_ge _

theorem SegTree_from_slice_inv {T : Type} (S : SegSpec T) (values : List T) :
    SegInv S (SegTree.from_slice S values) ∧ SegOK (SegTree.from_slice S values) :=
  SegTree_from_vec_inv S values

theorem SegTree_update_inv {T : Type} {S : SegSpec T} {t t2 : SegTree T}
    {i : Nat} {v : T} (hok : SegTree.update S t i v = .ok t2)
    (hinv : SegInv S t) (hsok : SegOK t) : SegInv S t2 ∧ SegOK t2 := by
  have hi : i < t.size := by
    by_contra hc
    rw [SegTree.update, if_neg hc] at hok
    exact Except.noConfusion hok
  rw [SegTree.update, if_pos hi] at hok
  have ht2 : t2 = { t with
      data := SegTree.recompute S (t.data.set (i + t.maxSize) v) (i + t.maxSize) } := by
    cases hok
    rfl
  obtain ⟨hdl, hsm⟩ := hsok
  have hmpos : 1 ≤ t.maxSize := by omega
  subst ht2
  constructor
  · rw [SegInv_iff_nodeEq]
    show nodeEq S (SegTree.recompute S (t.data.set (i + t.maxSize) v)
      (i + t.maxSize)) t.maxSize
    refine recompute_spec S t.maxSize (i + t.maxSize) _ (by omega)
      (by rw [List.length_set]; omega) ?_
    intro k h1 h2 hknot
    have hk0 : k ≠ i + t.maxSize := by omega
    have hk1 : k * 2 ≠ i + t.maxSize := by
      intro hc
      refine hknot ⟨⟨1, by rw [Nat.pow_one]; omega⟩, by omega⟩
    have hk2 : k * 2 + 1 ≠ i + t.maxSize := by
      intro hc
      refine hknot ⟨⟨1, by rw [Nat.pow_one]; omega⟩, by omega⟩
    rw [getD_set_ne _ _ _ (by omega), getD_set_ne _ _ _ (by omega),
      getD_set_ne _ _ _ (by omega)]
    have := hinv k h1 h2
    rw [Nat.mul_comm 2 k] at this
    exact this
  · refine ⟨?_, hsm⟩
    show (SegTree.recompute S (t.data.set (i + t.maxSize) v) (i + t.maxSize)).length
      = 2 * t.maxSize
    rw [recompute_length, List.length_set]
    exact hdl

theorem SegReach_inv {T : Type} {S : SegSpec T} (L : SegLaws S) {t : SegTree T}
    (h : SegReach S t) : SegInv S t ∧ SegOK t := by
  induction h with
  | from_vec values => exact SegTree_from_vec_inv S values
  | from_slice values => exact SegTree_from_slice_inv S values
  | new n => exact SegTree_new_inv L n
  | update _ hok ih => exact SegTree_update_inv hok ih.1 ih.2

-- ## Reachability gives representation

theorem Reach_LazyRepr {T U : Type} {S : LazySpec T U} (L : LazyLaws S)
    {t : LazySegTree T U} {m : List T} (h : Reach S t m) : LazyRepr S t m := by
  induction h with
  | from_vec values => exact LazyRepr_from_vec L values
  | from_slice values => exact LazyRepr_from_slice L values
  | new n => exact LazyRepr_new L n
  | update hre hok ih =>
    rename_i t1 m1 t21 l r v
    have hv : validate_range l r t1.size := by
      by_contra hc
      rw [LazySegTree.update, if_neg hc] at hok
      exact Except.noConfusion hok
    obtain ⟨t2x, hok2, hrep2, _, _⟩ := LazySegTree_update_spec L ih hv.1 hv.2 v
    rw [hok2] at hok
    simp only [Except.ok.injEq] at hok
    rw [← hok]
    exact hrep2
  | query hre hok ih =>
    rename_i t1 m1 t21 a l r
    have hv : validate_range l r t1.size := by
      by_contra hc
      rw [LazySegTree.query, if_neg hc] at hok
      exact Except.noConfusion hok
    obtain ⟨t2x, hok2, hrep2, _, _⟩ := LazySegTree_query_spec L ih hv.1 hv.2
    rw [hok2] at hok
    simp only [Except.ok.injEq, Prod.mk.injEq] at hok
    rw [← hok.2]
    exact hrep2

-- ## The concrete instances satisfy the laws

theorem AddSum_laws : LazyLaws AddSum := by
  constructor <;> intros <;> simp only [AddSum] <;> push_cast <;> ring

theorem SumSpec_laws : SegLaws SumSpec := by
  constructor <;> intros <;> simp only [SumSpec] <;> ring

-- ======================================================================
-- Claims
-- ======================================================================

/-- C1: for every lazy tree built by `from_vec`/`from_slice`/`new` and every
sequence of interleaved valid `update`/`query` calls, assuming the trait laws
(`op_on_data` a monoid with identity `ID`, `op_on_update` associative and
composing in applied-later order, `op_update_on_data` distributing over
combination), the run succeeds and every query answer equals the fold of
`op_on_data` over `[l, r)` of the reference plain sequence obtained by
replaying the preceding updates in submission order. -/
theorem claim_C1_lazy_replay_correct {T U : Type} {S : LazySpec T U}
    (L : LazyLaws S) (init : List T) (ops : List (Op U)) (t : LazySegTree T U)
    (hbuilt : t = LazySegTree.from_vec S init ∨ t = LazySegTree.from_slice S init
      ∨ (t = LazySegTree.new S init.length ∧ init = List.replicate init.length S.ID))
    (hvalid : ∀ op ∈ ops, opValid init.length op) :
    ∃ t2, runOps S t ops = .ok (t2, runRef S init ops) := by
  have hrep : LazyRepr S t init := by
    rcases hbuilt with h | h | ⟨h, h2⟩
    · subst h
      exact LazyRepr_from_vec L init
    · subst h
      exact LazyRepr_from_slice L init
    · subst h
      have hres := LazyRepr_new L init.length
      rw [← h2] at hres
      exact hres
  have hsz : t.size = init.length := hrep.mlen.symm
  exact runOps_spec L ops t init hrep (by rw [hsz]; exact hvalid)

/-- C1 witness: the range-add/range-sum instance on `[1,2,3,4,5]` with the
interleaved sequence query 1 4; update 1 4 10; query 1 4; query 0 5. -/
theorem claim_C1_lazy_replay_correct_witness :
    ∃ t2, runOps AddSum (LazySegTree.from_vec AddSum [1, 2, 3, 4, 5])
        [Op.query 1 4, Op.update 1 4 10, Op.query 1 4, Op.query 0 5]
      = .ok (t2, runRef AddSum [1, 2, 3, 4, 5]
        [Op.query 1 4, Op.update 1 4 10, Op.query 1 4, Op.query 0 5]) :=
  claim_C1_lazy_replay_correct AddSum_laws [1, 2, 3, 4, 5]
    [Op.query 1 4, Op.update 1 4 10, Op.query 1 4, Op.query 0 5] _ (Or.inl rfl)
    (by
      intro op hop
      simp only [List.mem_cons, List.not_mem_nil, or_false] at hop
      rcases hop with rfl | rfl | rfl | rfl <;> exact ⟨by decide, by decide⟩)

/-- C2 (amended): in every reachable lazy-tree state the recursive invariant
`LazyInv` holds at the root — every internal node's stored data equals the
fold of its children's denotations, a node's denotation applying its own
pending tag (for its full covered size) on top of everything recorded below
it — and the root denotation equals the reference sequence padded with
identities.  Thus `apply(tags[i], data[i], size_of(i))` accounts for the
updates recorded at or below `i`, but not for pending tags of `i`'s strict
ancestors, and a tag-free node's data need not reflect ancestor updates. -/
theorem claim_C2_lazy_tag_invariant {T U : Type} {S : LazySpec T U}
    (L : LazyLaws S) {t : LazySegTree T U} {m : List T} (h : Reach S t m) :
    LazyInv S t 1 0 t.maxSize
      ∧ D S t 1 0 t.maxSize = m ++ List.replicate (t.maxSize - t.size) S.ID := by
  have hrep := Reach_LazyRepr L h
  exact ⟨hrep.inv, hrep.den⟩

/-- C2 witness: the invariant and denotation at the concrete range-add tree
built from `[1, 2]`. -/
theorem claim_C2_lazy_tag_invariant_witness :
    LazyInv AddSum (LazySegTree.from_vec AddSum [1, 2]) 1 0
        (LazySegTree.from_vec AddSum [1, 2]).maxSize
      ∧ D AddSum (LazySegTree.from_vec AddSum [1, 2]) 1 0
          (LazySegTree.from_vec AddSum [1, 2]).maxSize
        = [1, 2] ++ List.replicate ((LazySegTree.from_vec AddSum [1, 2]).maxSize
            - (LazySegTree.from_vec AddSum [1, 2]).size) AddSum.ID :=
  claim_C2_lazy_tag_invariant AddSum_laws (Reach.from_vec [1, 2])

/-- C2 counterexample: build the range-add tree from `[1, 1, 1, 1]`, then
`update(2..4, 5)` and `update(0..4, 7)` (both calls valid and successful).
In the resulting state node 6 — the leaf covering position 2 — holds
`tags[6] = some 5` and `data[6] = 1`, so `apply(tags[6], data[6], 1) = 6`,
while the true aggregate of its range after both updates is `13` (the
reference sequence is `[8, 8, 13, 13]`): the pending tag `7` sitting at its
ancestor (node 3) is missing.  Likewise node 4 — the leaf covering
position 0 — has `tags[4] = none` and `data[4] = 1`, though the true value
of position 0 is `8`: a tag-free node's data does not reflect all updates
ever applied to its range.  Both parts of the claimed invariant fail. -/
theorem claim_C2_counterexample :
    ((LazySegTree.update AddSum (LazySegTree.from_vec AddSum [1, 1, 1, 1]) 2 4 5).bind
        (fun t => LazySegTree.update AddSum t 0 4 7)).map
        (fun t2 => (t2.tags.getD 6 none,
          applyOpt AddSum (t2.tags.getD 6 none) (t2.data.getD 6 AddSum.ID) 1,
          t2.tags.getD 4 none, t2.data.getD 4 AddSum.ID))
      = Except.ok (some 5, 6, none, 1)
    ∧ applyBetween AddSum 7 0 4 0 (applyBetween AddSum 5 2 4 0 ([1, 1, 1, 1] : List Int))
      = [8, 8, 13, 13]
    ∧ (6 : Int) ≠ 13
    ∧ (1 : Int) ≠ 8 := by
  refine ⟨?_, by simp [applyBetween, AddSum], by decide, by decide⟩
  simp [LazySegTree.update, LazySegTree.update_internal, LazySegTree.push,
    LazySegTree.pull_mut, combine_tag_option, LazySegTree.from_vec, writeLeaves,
    buildLoop, Nat.nextPowerOfTwo, Nat.nextPowerOfTwo.go, validate_range, AddSum,
    applyOpt, Except.bind, Except.map, bind]

/-- C3 (amended): the combine phase of a lazy query is mutating — reading a
node's effective value first pushes its pending tag (applying it to the
node's own data and composing it into the children), clearing the node's tag
slot.  The query nonetheless returns the correct aggregate (the fold of the
reference sequence over `[l, r)`), leaves the per-position denotation of the
tree unchanged, and the resulting state is again a reachable state of the
same reference sequence, so subsequent operations observe the same values. -/
theorem claim_C3_query_pushes_tags {T U : Type} {S : LazySpec T U}
    (L : LazyLaws S) {t : LazySegTree T U} {m : List T} (h : Reach S t m)
    {l r : Nat} (hlr : l ≤ r) (hrs : r ≤ t.size) :
    ∃ t2, LazySegTree.query S t l r = .ok (sliceFold S m l r, t2)
      ∧ D S t2 1 0 t2.maxSize = D S t 1 0 t.maxSize
      ∧ Reach S t2 m := by
  have hrep := Reach_LazyRepr L h
  obtain ⟨t2, hok, hrep2, hsz, hmax⟩ := LazySegTree_query_spec L hrep hlr hrs
  refine ⟨t2, hok, ?_, Reach.query h hok⟩
  rw [hrep2.den, hrep.den, hsz, hmax]

/-- C3 witness: querying `[0, 1)` on the range-add tree built from `[1, 2]`. -/
theorem claim_C3_query_pushes_tags_witness :
    ∃ t2, LazySegTree.query AddSum (LazySegTree.from_vec AddSum [1, 2]) 0 1
        = .ok (sliceFold AddSum [1, 2] 0 1, t2)
      ∧ D AddSum t2 1 0 t2.maxSize
          = D AddSum (LazySegTree.from_vec AddSum [1, 2]) 1 0
              (LazySegTree.from_vec AddSum [1, 2]).maxSize
      ∧ Reach AddSum t2 [1, 2] :=
  claim_C3_query_pushes_tags AddSum_laws (Reach.from_vec [1, 2]) (by decide)
    (by decide)

/-- C3 counterexample: build the range-add tree from `[1, 1, 1, 1]` and run
the valid `update(0..2, 5)`; in the resulting state the leaf node 4 (covering
position 0) holds the pending tag `some 5`.  The read-only call
`query(0..1)` fully covers node 4 and folds its effective value `6` into the
(correct) result — but afterwards node 4's tag slot is `none`: the query
cleared the stored tag of a node it read, contradicting the claimed
non-mutating evaluation. -/
theorem claim_C3_counterexample :
    ((LazySegTree.update AddSum (LazySegTree.from_vec AddSum [1, 1, 1, 1]) 0 2 5).map
        (fun t => t.tags.getD 4 none) = Except.ok (some 5))
    ∧ ((LazySegTree.update AddSum (LazySegTree.from_vec AddSum [1, 1, 1, 1]) 0 2 5).bind
        (fun t => LazySegTree.query AddSum t 0 1)).map
        (fun p => (p.1, p.2.tags.getD 4 none)) = Except.ok (6, none)
    ∧ some (5 : Int) ≠ none := by
  refine ⟨?_, ?_, by decide⟩ <;>
  simp [LazySegTree.update, LazySegTree.update_internal, LazySegTree.query,
    LazySegTree.query_internal, LazySegTree.push, LazySegTree.pull_mut,
    combine_tag_option, LazySegTree.from_vec, writeLeaves, buildLoop,
    Nat.nextPowerOfTwo, Nat.nextPowerOfTwo.go, validate_range, AddSum,
    Except.bind, Except.map, bind]

/-- C4 (amended): construction with zero elements succeeds for both trees
and for every spec: `new 0` and `from_vec`/`from_slice` of the empty
sequence return size-0 trees, and the (only valid) query — over the empty
range `[0, 0)` — returns `ID` rather than failing.  The embedded error type
mirrors the source's `RangeQueryError`, which has no `InvalidSize` variant
at all: no construction path can fail. -/
theorem claim_C4_zero_size_construction {T U : Type} (SP : SegSpec T)
    (S : LazySpec T U) :
    (SegTree.new SP 0).size = 0
    ∧ (SegTree.from_vec SP []).size = 0
    ∧ (SegTree.from_slice SP []).size = 0
    ∧ SegTree.query SP (SegTree.new SP 0) 0 0 = .ok SP.ID
    ∧ SegTree.query SP (SegTree.from_vec SP []) 0 0 = .ok SP.ID
    ∧ (LazySegTree.new S 0).size = 0
    ∧ (LazySegTree.from_vec S []).size = 0
    ∧ (LazySegTree.from_slice S []).size = 0
    ∧ LazySegTree.query S (LazySegTree.new S 0) 0 0 = .ok (S.ID, LazySegTree.new S 0)
    ∧ LazySegTree.query S (LazySegTree.from_vec S []) 0 0
        = .ok (S.ID, LazySegTree.from_vec S []) :=
  ⟨rfl, rfl, rfl, rfl, rfl, rfl, rfl, rfl, rfl, rfl⟩

/-- C4 counterexample: at the concrete sum instances, `SegTree.new 0` and
`LazySegTree.from_slice []` succeed with size-0 trees whose full-range query
returns `ID = 0` — no construction with zero elements fails, and no
`InvalidSize` error exists in the embedded error type, refuting the claim
that `new(0)` and empty `from_initial` fail with `InvalidSize`. -/
theorem claim_C4_counterexample :
    (SegTree.new SumSpec 0).size = 0
    ∧ SegTree.query SumSpec (SegTree.new SumSpec 0) 0 0 = .ok 0
    ∧ (SegTree.from_slice SumSpec []).size = 0
    ∧ SegTree.query SumSpec (SegTree.from_slice SumSpec []) 0 0 = .ok 0
    ∧ (LazySegTree.new AddSum 0).size = 0
    ∧ (LazySegTree.from_slice AddSum []).size = 0
    ∧ (LazySegTree.query AddSum (LazySegTree.from_slice AddSum []) 0 0).map Prod.fst
        = .ok 0
    ∧ RQError.invalidRange ≠ RQError.indexOutOfBounds :=
  ⟨rfl, rfl, rfl, rfl, rfl, rfl, rfl, by decide⟩

/-- C5: invalid arguments are rejected by the validation that precedes any
mutation, and the rejected call leaves every stored value unchanged: for any
tree state, a query or range-update whose half-open range has `left > right`
or `right > size` returns `error invalidRange`, and a point update with
`index ≥ size` returns `error indexOutOfBounds`; in each case the call
produces no new state — the caller keeps the unmodified tree, so every
subsequent valid query returns exactly its pre-call result. -/
theorem claim_C5_invalid_rejected {T U : Type} (SP : SegSpec T)
    (S : LazySpec T U) (t : SegTree T) (lt : LazySegTree T U) (l r : Nat)
    (u : U) (i : Nat) (v : T) (hbad : ¬ validate_range l r t.size)
    (hbad2 : ¬ validate_range l r lt.size) (hib : ¬ i < t.size) :
    SegTree.query SP t l r = .error .invalidRange
    ∧ SegTree.update SP t i v = .error .indexOutOfBounds
    ∧ LazySegTree.query S lt l r = .error .invalidRange
    ∧ LazySegTree.update S lt l r u = .error .invalidRange := by
  refine ⟨?_, ?_, ?_, ?_⟩
  · rw [SegTree.query, if_neg hbad]
  · rw [SegTree.update, if_neg hib]
  · rw [LazySegTree.query, if_neg hbad2]
  · rw [LazySegTree.update, if_neg hbad2]

/-- C5 witness: the out-of-bounds calls `query(0..size+1)` and
`update(size..size+1)` of the spec's test, on concrete size-3 sum trees. -/
theorem claim_C5_invalid_rejected_witness :
    SegTree.query SumSpec (SegTree.from_vec SumSpec [1, 2, 3]) 0 4
      = .error .invalidRange
    ∧ SegTree.update SumSpec (SegTree.from_vec SumSpec [1, 2, 3]) 3 9
      = .error .indexOutOfBounds
    ∧ LazySegTree.query AddSum (LazySegTree.from_vec AddSum [1, 2, 3]) 0 4
      = .error .invalidRange
    ∧ LazySegTree.update AddSum (LazySegTree.from_vec AddSum [1, 2, 3]) 0 4 9
      = .error .invalidRange :=
  claim_C5_invalid_rejected SumSpec AddSum (SegTree.from_vec SumSpec [1, 2, 3])
    (LazySegTree.from_vec AddSum [1, 2, 3]) 0 4 9 3 9
    (by simp [validate_range, SegTree.from_vec])
    (by simp [validate_range, LazySegTree.from_vec])
    (by simp [SegTree.from_vec])

/-- C6: in every state of the aggregation tree reachable from construction
(`new`, `from_vec`, `from_slice`) through successful point updates — queries
take the tree immutably — every internal index `i` with `1 ≤ i < maxSize`
satisfies `data[i] = op(data[2i], data[2i+1])`, given the monoid laws. -/
theorem claim_C6_aggregation_invariant {T : Type} {S : SegSpec T}
    (L : SegLaws S) {t : SegTree T} (h : SegReach S t) :
    ∀ i, 1 ≤ i → i < t.maxSize →
      t.data.getD i S.ID
        = S.op (t.data.getD (2 * i) S.ID) (t.data.getD (2 * i + 1) S.ID) :=
  (SegReach_inv L h).1

/-- C6 witness: the root equation of the sum tree built from `[1, 2, 3]`. -/
theorem claim_C6_aggregation_invariant_witness :
    (SegTree.from_vec SumSpec [1, 2, 3]).data.getD 1 SumSpec.ID
      = SumSpec.op ((SegTree.from_vec SumSpec [1, 2, 3]).data.getD (2 * 1) SumSpec.ID)
        ((SegTree.from_vec SumSpec [1, 2, 3]).data.getD (2 * 1 + 1) SumSpec.ID) :=
  claim_C6_aggregation_invariant SumSpec_laws (SegReach.from_vec [1, 2, 3]) 1
    (by decide)
    (by simp [SegTree.from_vec, Nat.nextPowerOfTwo, Nat.nextPowerOfTwo.go])

/-- C7: empty ranges are identities for both trees: for every state and
every `i ≤ size`, `query(i..i)` returns `ID` and hands back the very same
tree value (no stored data or tag is touched), and the lazy
`update(i..i, u)` returns the unchanged tree for every update value `u`, so
subsequent queries are unaffected. -/
theorem claim_C7_empty_range_identity {T U : Type} (SP : SegSpec T)
    (S : LazySpec T U) (t : SegTree T) (lt : LazySegTree T U) (i : Nat)
    (u : U) (hi : i ≤ t.size) (hi2 : i ≤ lt.size) :
    SegTree.query SP t i i = .ok SP.ID
    ∧ LazySegTree.query S lt i i = .ok (S.ID, lt)
    ∧ LazySegTree.update S lt i i u = .ok lt := by
  refine ⟨?_, ?_, ?_⟩
  · rw [SegTree.query, if_pos ⟨le_refl i, hi⟩, if_pos rfl]
  · rw [LazySegTree.query, if_pos ⟨le_refl i, hi2⟩, if_pos rfl]
  · rw [LazySegTree.update, if_pos ⟨le_refl i, hi2⟩, if_pos rfl]

/-- C7 witness: the empty range `[2, 2)` at the boundary `i = size` on
concrete size-2 sum trees. -/
theorem claim_C7_empty_range_identity_witness :
    SegTree.query SumSpec (SegTree.from_vec SumSpec [1, 2]) 2 2 = .ok SumSpec.ID
    ∧ LazySegTree.query AddSum (LazySegTree.from_vec AddSum [1, 2]) 2 2
        = .ok (AddSum.ID, LazySegTree.from_vec AddSum [1, 2])
    ∧ LazySegTree.update AddSum (LazySegTree.from_vec AddSum [1, 2]) 2 2 7
        = .ok (LazySegTree.from_vec AddSum [1, 2]) :=
  claim_C7_empty_range_identity SumSpec AddSum (SegTree.from_vec SumSpec [1, 2])
    (LazySegTree.from_vec AddSum [1, 2]) 2 7 (by decide) (by decide)

/-- C8: every accepted interval form normalizes, via `parse_range`, to the
canonical half-open pair before validation: for every tree and indices,
`query(a..=b) = query(a..b+1)`, `query(..b) = query(0..b)`,
`query(a..) = query(a..size)` and `query(..) = query(0..size)`, and the same
equivalences hold for the lazy tree's `query` and for the range argument of
its `update`. -/
theorem claim_C8_range_normalization {T U : Type} (SP : SegSpec T)
    (S : LazySpec T U) (t : SegTree T) (lt : LazySegTree T U) (a b : Nat)
    (u : U) :
    SegTree.queryBounds SP t (.included a) (.included b) = SegTree.query SP t a (b + 1)
    ∧ SegTree.queryBounds SP t (.included a) (.excluded b) = SegTree.query SP t a b
    ∧ SegTree.queryBounds SP t .unbounded (.excluded b) = SegTree.query SP t 0 b
    ∧ SegTree.queryBounds SP t (.included a) .unbounded = SegTree.query SP t a t.size
    ∧ SegTree.queryBounds SP t .unbounded .unbounded = SegTree.query SP t 0 t.size
    ∧ LazySegTree.queryBounds S lt (.included a) (.included b)
        = LazySegTree.query S lt a (b + 1)
    ∧ LazySegTree.queryBounds S lt (.included a) (.excluded b)
        = LazySegTree.query S lt a b
    ∧ LazySegTree.queryBounds S lt .unbounded (.excluded b)
        = LazySegTree.query S lt 0 b
    ∧ LazySegTree.queryBounds S lt (.included a) .unbounded
        = LazySegTree.query S lt a lt.size
    ∧ LazySegTree.queryBounds S lt .unbounded .unbounded
        = LazySegTree.query S lt 0 lt.size
    ∧ LazySegTree.updateBounds S lt (.included a) (.included b) u
        = LazySegTree.update S lt a (b + 1) u
    ∧ LazySegTree.updateBounds S lt (.included a) (.excluded b) u
        = LazySegTree.update S lt a b u
    ∧ LazySegTree.updateBounds S lt .unbounded (.excluded b) u
        = LazySegTree.update S lt 0 b u
    ∧ LazySegTree.updateBounds S lt (.included a) .unbounded u
        = LazySegTree.update S lt a lt.size u
    ∧ LazySegTree.updateBounds S lt .unbounded .unbounded u
        = LazySegTree.update S lt 0 lt.size u :=
  ⟨rfl, rfl, rfl, rfl, rfl, rfl, rfl, rfl, rfl, rfl, rfl, rfl, rfl, rfl, rfl⟩

/-- C9: the spec's concrete range-add/range-sum scenario — on the lazy tree
built from `[1, 2, 3, 4, 5]` with `ID = 0`, `combine_data = +`,
`compose_update = +` and `apply(u, d, n) = d + u*n`, running the interleaved
sequence `query(1..4); update(1..4, 10); query(1..4); query(0..5)` on the
same evolving tree succeeds and answers `9`, then `39` and `45`. -/
theorem claim_C9_concrete_scenario :
    (runOps AddSum (LazySegTree.from_vec AddSum [1, 2, 3, 4, 5])
        [Op.query 1 4, Op.update 1 4 10, Op.query 1 4, Op.query 0 5]).map Prod.snd
      = Except.ok [9, 39, 45] := by
  simp [runOps, LazySegTree.from_vec, LazySegTree.query, LazySegTree.update,
    LazySegTree.query_internal, LazySegTree.update_internal, LazySegTree.push,
    LazySegTree.pull_mut, combine_tag_option, writeLeaves, buildLoop,
    Nat.nextPowerOfTwo, Nat.nextPowerOfTwo.go, validate_range, AddSum,
    Except.map, Except.bind, bind, pure, Except.pure]

/-- C10: constructing either tree with zero elements succeeds and yields a
well-formed empty tree: `SegTree.new 0`, `LazySegTree.new 0` and
`from_slice`/`from_vec` of the empty sequence all return size-0 trees on
which the full-range query (which is `query(0..0)`, since `size = 0`)
returns `ID` without failing, for every spec. -/
theorem claim_C10_empty_tree_usable {T U : Type} (SP : SegSpec T)
    (S : LazySpec T U) :
    SegTree.query SP (SegTree.new SP 0) 0 (SegTree.new SP 0).size = .ok SP.ID
    ∧ SegTree.query SP (SegTree.from_slice SP []) 0 (SegTree.from_slice SP []).size
        = .ok SP.ID
    ∧ SegTree.query SP (SegTree.from_vec SP []) 0 0 = .ok SP.ID
    ∧ (LazySegTree.query S (LazySegTree.new S 0) 0 (LazySegTree.new S 0).size).map
        Prod.fst = .ok S.ID
    ∧ (LazySegTree.query S (LazySegTree.from_slice S []) 0
        (LazySegTree.from_slice S []).size).map Prod.fst = .ok S.ID
    ∧ (LazySegTree.query S (LazySegTree.from_vec S []) 0 0).map Prod.fst = .ok S.ID :=
  ⟨rfl, rfl, rfl, rfl, rfl, rfl⟩
